import Mathlib

/-!
# CompactChain: a sorted multimap kept in contiguous slices

A shallow embedding of `chain.go` (package `compactchain`) and a verification
of its documented properties.

Modelling conventions.

* A Go slice is a `List`; a run time panic (index or slice bound out of range)
  is `none`, so every operation that indexes returns an `Option`.
* `K` and `V` range over linearly ordered types.  The Go constraint
  `constraints.Ordered` also admits floating point types, whose `NaN` is not
  part of a linear order; such keys are outside this development.
* `int` values are lengths and indices of slices.  They are natural numbers
  here: two indices of one slice always add up to less than `2 ^ 64`, so the
  midpoint `int(uint(i+j) >> 1)` is `(i + j) / 2`.
* The reader/writer lock is not modelled: every operation is one atomic step
  on the state.
* The first embedding keeps the contents of the chains.  A second one, in the
  namespace `Mem`, keeps slice headers and a heap of backing arrays; it is
  shown to simulate the first (`mem_run_sim`) and settles what a caller sees
  through a slice that `Get` returned.
-/

set_option linter.unusedSectionVars false

namespace CompactChain

/-! ## Slice primitives -/

/-- Slice indexing `s[i]`; out of range is a panic. -/
def index {α : Type} (s : List α) (i : Nat) : Option α :=
  s[i]?

/-- The slice expression `s[lo:]`; `lo > len(s)` is a panic. -/
def sliceFrom {α : Type} (s : List α) (lo : Nat) : Option (List α) :=
  if lo ≤ s.length then some (s.drop lo) else none

/-- The slice expression `s[:hi]`.  Capacity is not tracked, so the bound is
the length, which is at most the capacity. -/
def sliceTo {α : Type} (s : List α) (hi : Nat) : Option (List α) :=
  if hi ≤ s.length then some (s.take hi) else none

/-- The indexed store `s[i] = x`; out of range is a panic. -/
def setIndex {α : Type} (s : List α) (i : Nat) (x : α) : Option (List α) :=
  if i < s.length then some (s.set i x) else none

/-- The builtin call `copy(s[d:], s[r:])` on two windows of the same slice:
`min(len(s[d:]), len(s[r:]))` elements move, as if through a temporary. -/
def copyWithin {α : Type} (s : List α) (d r : Nat) : Option (List α) := do
  let dst ← sliceFrom s d
  let src ← sliceFrom s r
  let n := min dst.length src.length
  pure (s.take d ++ src.take n ++ s.drop (d + n))

/-- The loop of the standard library function `sort.Search`:
`for i < j { h := int(uint(i+j) >> 1); if !f(h) { i = h + 1 } else { j = h } }`.
The first argument bounds the number of iterations; running out of it with
`i < j` is a failure. -/
def searchLoop (f : Nat → Option Bool) : Nat → Nat → Nat → Option Nat
  | 0, i, j => if i < j then none else some i
  | fuel + 1, i, j =>
    if i < j then
      let h := (i + j) / 2
      match f h with
      | none => none
      | some b => if !b then searchLoop f fuel (h + 1) j else searchLoop f fuel i h
    else some i

/-- The call `sort.Search(n, f)`: binary search on `[0, n)` for the smallest
index at which `f` is true.  The loop halves `j - i` each round, so `n` rounds
are more than it ever runs. -/
def Search (n : Nat) (f : Nat → Option Bool) : Option Nat :=
  searchLoop f n 0 n

/-- A slice of non-nil pointers, read back from a slice of pointers; a
remaining `nil` is a failure. -/
def allNonNil {α : Type} : List (Option α) → Option (List α)
  | [] => some []
  | none :: _ => none
  | some a :: rest => (allNonNil rest).map (fun l => a :: l)

end CompactChain

/-! ## Data model -/

/-- The struct `Entry[K, V]`: a key with its chain of values. -/
structure Entry (K V : Type) where
  Key : K
  Chain : List V
deriving DecidableEq

/-- The struct `CompactChain[K, V]`: the slice `buffers` of entries. -/
structure CompactChain (K V : Type) where
  buffers : List (Entry K V)
deriving DecidableEq

namespace CompactChain

variable {K V : Type} [LinearOrder K] [LinearOrder V]

/-- The constructor `NewCompactChain`: no entries. -/
def NewCompactChain : CompactChain K V :=
  { buffers := [] }

/-- The method `Add`. -/
def Add (m : CompactChain K V) (key : K) (value : V) : Option (CompactChain K V) := do
  let bufferIndex ← Search m.buffers.length
    (fun i => (index m.buffers i).map (fun e => decide (e.Key ≥ key)))
  let found ←
    (if bufferIndex < m.buffers.length then
      (index m.buffers bufferIndex).map (fun e => decide (e.Key = key))
    else some false)
  if found then do
    let entry ← index m.buffers bufferIndex
    let buffer := entry.Chain
    let valueIndex ← Search buffer.length
      (fun i => (index buffer i).map (fun x => decide (x ≥ value)))
    let dup ←
      (if valueIndex < buffer.length then
        (index buffer valueIndex).map (fun x => decide (x = value))
      else some false)
    if dup then
      some m
    else do
      let buffer1 := buffer ++ [value]
      let buffer2 ← copyWithin buffer1 (valueIndex + 1) valueIndex
      let buffer3 ← setIndex buffer2 valueIndex value
      some { buffers := m.buffers.set bufferIndex { entry with Chain := buffer3 } }
  else do
    let entry : Entry K V := { Key := key, Chain := [value] }
    let buffers1 : List (Option (Entry K V)) := m.buffers.map some ++ [none]
    let buffers2 ← copyWithin buffers1 (bufferIndex + 1) bufferIndex
    let buffers3 ← setIndex buffers2 bufferIndex (some entry)
    let buffers4 ← allNonNil buffers3
    some { buffers := buffers4 }

/-- The method `Get`: the chain of the key and `true`, or no values and
`false`. -/
def Get (m : CompactChain K V) (key : K) : Option (List V × Bool) := do
  let bufferIndex ← Search m.buffers.length
    (fun i => (index m.buffers i).map (fun e => decide (e.Key ≥ key)))
  let found ←
    (if bufferIndex < m.buffers.length then
      (index m.buffers bufferIndex).map (fun e => decide (e.Key = key))
    else some false)
  if found then do
    let entry ← index m.buffers bufferIndex
    some (entry.Chain, true)
  else
    some ([], false)

/-- The method `Delete`. -/
def Delete (m : CompactChain K V) (key : K) (value : V) : Option (CompactChain K V) := do
  let bufferIndex ← Search m.buffers.length
    (fun i => (index m.buffers i).map (fun e => decide (e.Key ≥ key)))
  let found ←
    (if bufferIndex < m.buffers.length then
      (index m.buffers bufferIndex).map (fun e => decide (e.Key = key))
    else some false)
  if found then do
    let entry ← index m.buffers bufferIndex
    let buffer := entry.Chain
    let valueIndex ← Search buffer.length
      (fun i => (index buffer i).map (fun x => decide (x ≥ value)))
    let hit ←
      (if valueIndex < buffer.length then
        (index buffer valueIndex).map (fun x => decide (x = value))
      else some false)
    if hit then do
      let front ← sliceTo buffer valueIndex
      let back ← sliceFrom buffer (valueIndex + 1)
      let buffer1 := front ++ back
      let buffers1 := m.buffers.set bufferIndex { entry with Chain := buffer1 }
      if buffer1.length = 0 then do
        let efront ← sliceTo buffers1 bufferIndex
        let eback ← sliceFrom buffers1 (bufferIndex + 1)
        some { buffers := efront ++ eback }
      else
        some { buffers := buffers1 }
    else
      some m
  else
    some m

/-- The method `Exist`. -/
def Exist (m : CompactChain K V) (key : K) (value : V) : Option Bool := do
  let bufferIndex ← Search m.buffers.length
    (fun i => (index m.buffers i).map (fun e => decide (e.Key ≥ key)))
  let found ←
    (if bufferIndex < m.buffers.length then
      (index m.buffers bufferIndex).map (fun e => decide (e.Key = key))
    else some false)
  if found then do
    let entry ← index m.buffers bufferIndex
    let buffer := entry.Chain
    let valueIndex ← Search buffer.length
      (fun i => (index buffer i).map (fun x => decide (x ≥ value)))
    if valueIndex < buffer.length then
      (index buffer valueIndex).map (fun x => decide (x = value))
    else some false
  else
    some false

/-- The method `Count`: the running sum of the chain lengths. -/
def Count (m : CompactChain K V) : Nat :=
  m.buffers.foldl (fun count entry => count + entry.Chain.length) 0

/-- The inner loop of `Iterate` over one chain.  The visitor threads a state
of type `σ`; the Boolean result is `false` when the visitor asked to stop. -/
def iterateChain {σ : Type} (fn : σ → K → V → Bool × σ) (key : K) :
    List V → σ → Bool × σ
  | [], s => (true, s)
  | value :: rest, s =>
    let r := fn s key value
    if !r.1 then (false, r.2) else iterateChain fn key rest r.2

/-- The outer loop of `Iterate` over the entries. -/
def iterateEntries {σ : Type} (fn : σ → K → V → Bool × σ) :
    List (Entry K V) → σ → σ
  | [], s => s
  | entry :: rest, s =>
    let r := iterateChain fn entry.Key entry.Chain s
    if !r.1 then r.2 else iterateEntries fn rest r.2

/-- The method `Iterate`: the visitor is called on the pairs in storage order
until it returns `false`; the result is the visitor's final state. -/
def Iterate {σ : Type} (m : CompactChain K V) (fn : σ → K → V → Bool × σ) (s : σ) : σ :=
  iterateEntries fn m.buffers s

/-- The loop of `IterateKeys`. -/
def iterateKeysLoop {σ : Type} (fn : σ → K → List V → Bool × σ) :
    List (Entry K V) → σ → σ
  | [], s => s
  | entry :: rest, s =>
    let r := fn s entry.Key entry.Chain
    if !r.1 then r.2 else iterateKeysLoop fn rest r.2

/-- The method `IterateKeys`. -/
def IterateKeys {σ : Type} (m : CompactChain K V) (fn : σ → K → List V → Bool × σ)
    (s : σ) : σ :=
  iterateKeysLoop fn m.buffers s

/-! ## Specification vocabulary -/

/-- The pairs of a slice of entries, in storage order. -/
def pairsOf (l : List (Entry K V)) : List (K × V) :=
  l.flatMap (fun e => e.Chain.map (fun v => (e.Key, v)))

/-- The stored pairs of a structure, in storage order. -/
def toPairs (m : CompactChain K V) : List (K × V) :=
  pairsOf m.buffers

/-- The keys of the entries are strictly ascending. -/
def SortedKeys (m : CompactChain K V) : Prop :=
  (m.buffers.map Entry.Key).Pairwise (· < ·)

/-- The chain of every entry is strictly ascending. -/
def SortedChains (m : CompactChain K V) : Prop :=
  ∀ e ∈ m.buffers, e.Chain.Pairwise (· < ·)

/-- No entry has an empty chain. -/
def NoEmptyChain (m : CompactChain K V) : Prop :=
  ∀ e ∈ m.buffers, e.Chain ≠ []

/-- The three invariants of the data model together. -/
def Inv (m : CompactChain K V) : Prop :=
  SortedKeys m ∧ SortedChains m ∧ NoEmptyChain m

/-- A call of one of the two mutating methods. -/
inductive Op (K V : Type) where
  | add (key : K) (value : V)
  | delete (key : K) (value : V)
deriving DecidableEq

/-- One mutating call on a structure. -/
def step (m : CompactChain K V) : Op K V → Option (CompactChain K V)
  | Op.add key value => Add m key value
  | Op.delete key value => Delete m key value

/-- A finite sequence of mutating calls, first call first. -/
def run (m : CompactChain K V) : List (Op K V) → Option (CompactChain K V)
  | [] => some m
  | op :: ops => (step m op).bind (fun m1 => run m1 ops)

/-- A structure obtained from `NewCompactChain` by a finite sequence of `Add`
and `Delete` calls. -/
def Reachable (m : CompactChain K V) : Prop :=
  ∃ ops : List (Op K V), run NewCompactChain ops = some m

/-- The shape of a structure around a pair: the key has no entry, or its
entry lacks the value, or its entry holds the value; in each case the entries
before are below the key and those after above it, and likewise for the
values of the chain. -/
inductive View (key : K) (value : V) : CompactChain K V → Prop where
  | absentKey (pre post : List (Entry K V))
      (hpre : ∀ e ∈ pre, e.Key < key) (hpost : ∀ e ∈ post, key < e.Key) :
      View key value ⟨pre ++ post⟩
  | absentValue (pre post : List (Entry K V)) (vpre vpost : List V)
      (hpre : ∀ e ∈ pre, e.Key < key) (hpost : ∀ e ∈ post, key < e.Key)
      (hvpre : ∀ x ∈ vpre, x < value) (hvpost : ∀ x ∈ vpost, value < x) :
      View key value ⟨pre ++ ⟨key, vpre ++ vpost⟩ :: post⟩
  | present (pre post : List (Entry K V)) (vpre vpost : List V)
      (hpre : ∀ e ∈ pre, e.Key < key) (hpost : ∀ e ∈ post, key < e.Key)
      (hvpre : ∀ x ∈ vpre, x < value) (hvpost : ∀ x ∈ vpost, value < x) :
      View key value ⟨pre ++ ⟨key, vpre ++ value :: vpost⟩ :: post⟩

/-- A visitor of `Iterate` that also appends the pair it is called on to a
log; its answer and its own state are those of `fn`. -/
def logged {σ : Type} (fn : σ → K → V → Bool × σ) :
    σ × List (K × V) → K → V → Bool × (σ × List (K × V)) :=
  fun s key value => ((fn s.1 key value).1, ((fn s.1 key value).2, s.2 ++ [(key, value)]))

/-- A visitor of `IterateKeys` that also appends the key and the chain it is
called on to a log. -/
def loggedKeys {σ : Type} (fn : σ → K → List V → Bool × σ) :
    σ × List (K × List V) → K → List V → Bool × (σ × List (K × List V)) :=
  fun s key values => ((fn s.1 key values).1, ((fn s.1 key values).2, s.2 ++ [(key, values)]))

/-- The pair a call mentions. -/
def Op.pair : Op K V → K × V
  | Op.add key value => (key, value)
  | Op.delete key value => (key, value)

/-- The key a call mentions. -/
def Op.key : Op K V → K
  | Op.add key _ => key
  | Op.delete key _ => key

/-- The most recent call of a sequence that mentions the pair, if any. -/
def mostRecent (ops : List (Op K V)) (q : K × V) : Option (Op K V) :=
  ops.reverse.find? (fun op => decide (op.pair = q))

/-- The pair has been added and not deleted since: the most recent call that
mentions it is an `Add`. -/
def Live (ops : List (Op K V)) (q : K × V) : Prop :=
  mostRecent ops q = some (Op.add q.1 q.2)

/-- The order of a traversal: ascending key, then ascending value. -/
def LexLt (a b : K × V) : Prop :=
  a.1 < b.1 ∨ (a.1 = b.1 ∧ a.2 < b.2)

/-- The calls of a traversal over a list of items with early exit: each item
in turn, up to and including the first one on which the visitor returns
false. -/
def visitedPrefix {α σ : Type} (fn : σ → α → Bool × σ) : List α → σ → List α
  | [], _ => []
  | a :: rest, s => if (fn s a).1 then a :: visitedPrefix fn rest (fn s a).2 else [a]


/-! ## The same methods over backing arrays

The embedding above keeps the contents of each chain.  The one below keeps,
for each chain, the slice header (`ptr`, `len`, `cap`) and a heap of backing
arrays, so that two slice headers over one array can be told from two copies.
The slice of entries has a single owner and stays a list.  The capacity that
`append` picks when it allocates is chosen by the Go runtime; it is the
parameter `grow` (old capacity and needed length to new capacity). -/

namespace Mem

/-- A slice header: the address of the backing array, length, capacity. -/
structure Slice where
  ptr : Nat
  len : Nat
  cap : Nat
deriving DecidableEq

/-- The struct `Entry[K, V]` with the header that `Chain` points to. -/
structure Entry (K : Type) where
  Key : K
  Chain : Slice
deriving DecidableEq

/-- The struct `CompactChain[K, V]` with the heap of the backing arrays of
its chains, by address. -/
structure State (K V : Type) where
  heap : List (List V)
  buffers : List (Entry K)
deriving DecidableEq

/-- The elements a slice header shows: the first `len` cells of its array. -/
def read {V : Type} (heap : List (List V)) (s : Slice) : List V :=
  (heap.getD s.ptr []).take s.len

/-- The heap after the cells a slice header shows are overwritten. -/
def write {V : Type} (heap : List (List V)) (s : Slice) (cells : List V) : List (List V) :=
  heap.set s.ptr (cells ++ (heap.getD s.ptr []).drop s.len)

/-- Slice indexing `s[i]` through a header. -/
def readAt {V : Type} (heap : List (List V)) (s : Slice) (i : Nat) : Option V :=
  index (read heap s) i

/-- The indexed store `s[i] = x` through a header. -/
def storeAt {V : Type} (heap : List (List V)) (s : Slice) (i : Nat) (x : V) :
    Option (List (List V)) :=
  (setIndex (read heap s) i x).map (write heap s)

/-- The call `copy(s[d:], s[r:])` through a header. -/
def copyWindow {V : Type} (heap : List (List V)) (s : Slice) (d r : Nat) :
    Option (List (List V)) :=
  (copyWithin (read heap s) d r).map (write heap s)

/-- The builtin `append(s, src...)`: in place when the capacity allows,
otherwise into a new array of capacity `grow s.cap (s.len + len(src))`,
with zero values after the elements. -/
def appendSlice {V : Type} [Inhabited V] (grow : Nat → Nat → Nat) (heap : List (List V))
    (s : Slice) (src : List V) : List (List V) × Slice :=
  if s.len + src.length ≤ s.cap then
    (write heap { s with len := s.len + src.length } (read heap s ++ src),
      { s with len := s.len + src.length })
  else
    (heap ++ [read heap s ++ src
        ++ List.replicate (grow s.cap (s.len + src.length) - (s.len + src.length)) default],
      { ptr := heap.length, len := s.len + src.length,
        cap := grow s.cap (s.len + src.length) })

/-- The constructor `NewCompactChain`. -/
def NewCompactChain : State K V :=
  { heap := [], buffers := [] }

/-- The method `Add`. -/
def Add [Inhabited V] (grow : Nat → Nat → Nat) (st : State K V) (key : K) (value : V) :
    Option (State K V) := do
  let bufferIndex ← Search st.buffers.length
    (fun i => (index st.buffers i).map (fun e => decide (e.Key ≥ key)))
  let found ←
    (if bufferIndex < st.buffers.length then
      (index st.buffers bufferIndex).map (fun e => decide (e.Key = key))
    else some false)
  if found then do
    let entry ← index st.buffers bufferIndex
    let buffer := entry.Chain
    let valueIndex ← Search buffer.len
      (fun i => (readAt st.heap buffer i).map (fun x => decide (x ≥ value)))
    let dup ←
      (if valueIndex < buffer.len then
        (readAt st.heap buffer valueIndex).map (fun x => decide (x = value))
      else some false)
    if dup then
      some st
    else do
      let r := appendSlice grow st.heap buffer [value]
      let heap2 ← copyWindow r.1 r.2 (valueIndex + 1) valueIndex
      let heap3 ← storeAt heap2 r.2 valueIndex value
      some { heap := heap3,
             buffers := st.buffers.set bufferIndex { entry with Chain := r.2 } }
  else do
    let newBuffer : Slice := { ptr := st.heap.length, len := 1, cap := 1 }
    let entry : Entry K := { Key := key, Chain := newBuffer }
    let buffers1 : List (Option (Entry K)) := st.buffers.map some ++ [none]
    let buffers2 ← copyWithin buffers1 (bufferIndex + 1) bufferIndex
    let buffers3 ← setIndex buffers2 bufferIndex (some entry)
    let buffers4 ← allNonNil buffers3
    some { heap := st.heap ++ [[value]], buffers := buffers4 }

/-- The method `Get`: a copy of the header of the chain and `true`, or the
nil slice and `false`. -/
def Get (st : State K V) (key : K) : Option (Slice × Bool) := do
  let bufferIndex ← Search st.buffers.length
    (fun i => (index st.buffers i).map (fun e => decide (e.Key ≥ key)))
  let found ←
    (if bufferIndex < st.buffers.length then
      (index st.buffers bufferIndex).map (fun e => decide (e.Key = key))
    else some false)
  if found then do
    let entry ← index st.buffers bufferIndex
    some (entry.Chain, true)
  else
    some ({ ptr := 0, len := 0, cap := 0 }, false)

/-- The method `Delete`. -/
def Delete [Inhabited V] (grow : Nat → Nat → Nat) (st : State K V) (key : K) (value : V) :
    Option (State K V) := do
  let bufferIndex ← Search st.buffers.length
    (fun i => (index st.buffers i).map (fun e => decide (e.Key ≥ key)))
  let found ←
    (if bufferIndex < st.buffers.length then
      (index st.buffers bufferIndex).map (fun e => decide (e.Key = key))
    else some false)
  if found then do
    let entry ← index st.buffers bufferIndex
    let buffer := entry.Chain
    let valueIndex ← Search buffer.len
      (fun i => (readAt st.heap buffer i).map (fun x => decide (x ≥ value)))
    let hit ←
      (if valueIndex < buffer.len then
        (readAt st.heap buffer valueIndex).map (fun x => decide (x = value))
      else some false)
    if hit then do
      let front : Slice ←
        (if valueIndex ≤ buffer.cap then some { buffer with len := valueIndex } else none)
      let back ← sliceFrom (read st.heap buffer) (valueIndex + 1)
      let r := appendSlice grow st.heap front back
      let buffers1 := st.buffers.set bufferIndex { entry with Chain := r.2 }
      if r.2.len = 0 then do
        let efront ← sliceTo buffers1 bufferIndex
        let eback ← sliceFrom buffers1 (bufferIndex + 1)
        some { heap := r.1, buffers := efront ++ eback }
      else
        some { heap := r.1, buffers := buffers1 }
    else
      some st
  else
    some st

/-- One mutating call. -/
def step [Inhabited V] (grow : Nat → Nat → Nat) (st : State K V) :
    Op K V → Option (State K V)
  | Op.add key value => Add grow st key value
  | Op.delete key value => Delete grow st key value

/-- A finite sequence of mutating calls, first call first. -/
def run [Inhabited V] (grow : Nat → Nat → Nat) (st : State K V) :
    List (Op K V) → Option (State K V)
  | [] => some st
  | op :: ops => (step grow st op).bind (fun st1 => run grow st1 ops)

end Mem

/-- An entry of the first embedding: the key with the contents of the chain. -/
def entryContents (heap : List (List V)) (e : Mem.Entry K) : Entry K V :=
  { Key := e.Key, Chain := Mem.read heap e.Chain }

namespace Mem

/-- The contents of the chains: the structure of the first embedding. -/
def contents (st : State K V) : CompactChain K V :=
  { buffers := st.buffers.map (entryContents st.heap) }

/-- A slice header over an allocated array of the length it gives as
capacity, showing no more cells than that. -/
def Valid {V : Type} (heap : List (List V)) (s : Slice) : Prop :=
  s.ptr < heap.length ∧ s.len ≤ s.cap ∧ (heap.getD s.ptr []).length = s.cap

/-- Every chain has a valid header and its own backing array. -/
def WF (st : State K V) : Prop :=
  (∀ e ∈ st.buffers, Valid st.heap e.Chain) ∧
  (st.buffers.map (fun e => e.Chain.ptr)).Nodup

/-- What a call with the given key leaves alone: the entries of the other
keys stay in the structure with their headers, and their backing arrays keep
their cells. -/
def Frame (st st1 : State K V) (key : K) : Prop :=
  ∀ e ∈ st.buffers, e.Key ≠ key →
    e ∈ st1.buffers ∧ st1.heap.getD e.Chain.ptr [] = st.heap.getD e.Chain.ptr []

/-- A growth policy that doubles the capacity, for the examples. -/
def double (cap needed : Nat) : Nat :=
  max (2 * cap) needed

end Mem


/-! ## The binary search -/

/-- With enough rounds the loop returns the partition point `p` of a predicate
that is false below `p` and true from `p` on. -/
theorem searchLoop_eq (f : Nat → Option Bool) (p : Nat) :
    ∀ fuel i j, i ≤ p → p ≤ j → j - i ≤ fuel →
      (∀ h, i ≤ h → h < j → f h = some (decide (p ≤ h))) →
      searchLoop f fuel i j = some p := by
  intro fuel
  induction fuel with
  | zero =>
    intro i j hi hj hf _
    have hip : i = p := by omega
    subst hip
    have : ¬ i < j := by omega
    simp [searchLoop, this]
  | succ fuel ih =>
    intro i j hi hj hf hP
    unfold searchLoop
    by_cases hlt : i < j
    · have hh1 : i ≤ (i + j) / 2 := by omega
      have hh2 : (i + j) / 2 < j := by omega
      simp only [hlt, if_true, hP _ hh1 hh2]
      by_cases hp : p ≤ (i + j) / 2
      · simp only [hp, decide_True, Bool.not_true, Bool.false_eq_true, if_false]
        exact ih i ((i + j) / 2) hi hp (by omega) (fun h a b => hP h a (by omega))
      · simp only [hp, decide_False, Bool.not_false, if_true]
        exact ih ((i + j) / 2 + 1) j (by omega) hj (by omega) (fun h a b => hP h (by omega) b)
    · have hip : i = p := by omega
      rw [if_neg hlt, hip]

/-- The loop never fails and stays inside `[i, j]` when the predicate is
defined on `[0, n)`, whatever the predicate answers. -/
theorem searchLoop_total (f : Nat → Option Bool) (n : Nat)
    (hf : ∀ h, h < n → ∃ b, f h = some b) :
    ∀ fuel i j, i ≤ j → j ≤ n → j - i ≤ fuel →
      ∃ p, searchLoop f fuel i j = some p ∧ i ≤ p ∧ p ≤ j := by
  intro fuel
  induction fuel with
  | zero =>
    intro i j hij _ hfu
    have : ¬ i < j := by omega
    exact ⟨i, by simp [searchLoop, this], le_refl _, hij⟩
  | succ fuel ih =>
    intro i j hij hjn hfu
    unfold searchLoop
    by_cases hlt : i < j
    · obtain ⟨b, hb⟩ := hf ((i + j) / 2) (by omega)
      simp only [hlt, if_true, hb]
      cases b with
      | false =>
        obtain ⟨p, h1, h2, h3⟩ := ih ((i + j) / 2 + 1) j (by omega) hjn (by omega)
        exact ⟨p, by simpa using h1, by omega, h3⟩
      | true =>
        obtain ⟨p, h1, h2, h3⟩ := ih i ((i + j) / 2) (by omega) (by omega) (by omega)
        exact ⟨p, by simpa using h1, h2, by omega⟩
    · exact ⟨i, by simp [hlt], le_refl _, hij⟩

/-- The search over a slice returns an index in `[0, len]` for any test on the
elements. -/
theorem Search_total {β : Type} (l : List β) (P : β → Bool) :
    ∃ p, Search l.length (fun i => (index l i).map P) = some p ∧ p ≤ l.length := by
  have hf : ∀ h, h < l.length → ∃ b, (fun i => (index l i).map P) h = some b := by
    intro h hh
    exact ⟨P l[h], by simp [index, List.getElem?_eq_getElem hh]⟩
  obtain ⟨p, h1, _, h3⟩ := searchLoop_total _ l.length hf l.length 0 l.length
    (Nat.zero_le _) (le_refl _) (by omega)
  exact ⟨p, h1, h3⟩

/-- The search over a slice split into a part failing the test and a part
passing it returns the length of the first part. -/
theorem Search_split {β : Type} (P : β → Bool) (pre post : List β)
    (hpre : ∀ x ∈ pre, P x = false) (hpost : ∀ x ∈ post, P x = true) :
    Search (pre ++ post).length (fun i => (index (pre ++ post) i).map P)
      = some pre.length := by
  unfold Search
  apply searchLoop_eq _ pre.length (pre ++ post).length 0 (pre ++ post).length
    (Nat.zero_le _) (by simp) (by omega)
  intro h _ hh
  by_cases hlt : h < pre.length
  · have hx : (pre ++ post)[h]? = some pre[h] := by
      rw [List.getElem?_append_left hlt, List.getElem?_eq_getElem hlt]
    have : ¬ pre.length ≤ h := by omega
    simp [index, hx, hpre _ (List.getElem_mem hlt), this]
  · have hge : pre.length ≤ h := by omega
    have hh2 : h - pre.length < post.length := by
      simp only [List.length_append] at hh; omega
    have hx : (pre ++ post)[h]? = some post[h - pre.length] := by
      rw [List.getElem?_append_right hge, List.getElem?_eq_getElem hh2]
    simp [index, hx, hpost _ (List.getElem_mem hh2), hge]

/-- A list on which a test, once true, stays true splits into a failing part
followed by a passing part. -/
theorem exists_split {β : Type} (P : β → Bool) :
    ∀ l : List β, l.Pairwise (fun a b => P a = true → P b = true) →
      ∃ pre post, l = pre ++ post ∧ (∀ x ∈ pre, P x = false) ∧ (∀ x ∈ post, P x = true) := by
  intro l
  induction l with
  | nil => intro _; exact ⟨[], [], rfl, by simp, by simp⟩
  | cons a l ih =>
    intro hl
    rw [List.pairwise_cons] at hl
    by_cases ha : P a = true
    · refine ⟨[], a :: l, rfl, by simp, ?_⟩
      intro x hx
      rcases List.mem_cons.mp hx with h | h
      · rw [h]; exact ha
      · exact hl.1 x h ha
    · obtain ⟨pre, post, e, h1, h2⟩ := ih hl.2
      refine ⟨a :: pre, post, by rw [e]; rfl, ?_, h2⟩
      intro x hx
      rcases List.mem_cons.mp hx with h | h
      · rw [h]; simpa using ha
      · exact h1 x h

/-! ## Slice primitives on a slice split at the index -/

theorem index_split {α : Type} (pre post : List α) :
    index (pre ++ post) pre.length = post.head? := by
  cases post with
  | nil => simp [index]
  | cons a post =>
    rw [index, List.getElem?_append_right (le_refl _)]
    simp

theorem sliceTo_split {α : Type} (pre post : List α) :
    sliceTo (pre ++ post) pre.length = some pre := by
  simp [sliceTo]

theorem sliceFrom_split {α : Type} (pre post : List α) (a : α) :
    sliceFrom (pre ++ a :: post) (pre.length + 1) = some post := by
  have h : pre.length + 1 = (pre ++ [a]).length := by simp
  have e : pre ++ a :: post = (pre ++ [a]) ++ post := by simp
  rw [e, h, sliceFrom, if_pos (by simp), List.drop_left]

theorem set_split {α : Type} (pre post : List α) (a b : α) :
    (pre ++ a :: post).set pre.length b = pre ++ b :: post := by
  induction pre with
  | nil => rfl
  | cons x pre ih => simp [ih]

/-- Appending a placeholder, shifting the tail one place to the right and
storing at the index inserts the element at the index. -/
theorem shift_insert {α : Type} (pre post : List α) (z x : α) :
    (copyWithin (pre ++ post ++ [z]) (pre.length + 1) pre.length).bind
      (fun b => setIndex b pre.length x) = some (pre ++ x :: post) := by
  have hd : sliceFrom (pre ++ post ++ [z]) (pre.length + 1)
      = some ((post ++ [z]).drop 1) := by
    rw [sliceFrom, if_pos (by simp), List.append_assoc, List.drop_append_eq_append_drop]
    simp
  have hs : sliceFrom (pre ++ post ++ [z]) pre.length = some (post ++ [z]) := by
    rw [sliceFrom, if_pos (by simp), List.append_assoc, List.drop_left]
  obtain ⟨w, hw⟩ : ∃ w, (pre ++ post ++ [z]).take (pre.length + 1) = pre ++ [w] := by
    cases post with
    | nil => exact ⟨z, by simp⟩
    | cons a post =>
      refine ⟨a, ?_⟩
      rw [List.append_assoc, List.take_append_eq_append_take]
      simp
  have hn : min ((post ++ [z]).drop 1).length (post ++ [z]).length = post.length := by
    simp
  have ht : (post ++ [z]).take post.length = post := by simp
  have hdrop : (pre ++ post ++ [z]).drop (pre.length + 1 + post.length) = [] := by
    apply List.drop_eq_nil_of_le
    simp; omega
  simp only [copyWithin, hd, hs, Option.bind_eq_bind, Option.some_bind, hn, ht, hw, hdrop,
    Option.pure_def, List.append_nil]
  have e : pre ++ [w] ++ post = pre ++ w :: post := by simp
  rw [e, setIndex, if_pos (by simp), set_split]

theorem allNonNil_map_some {α : Type} (l : List α) : allNonNil (l.map some) = some l := by
  induction l with
  | nil => rfl
  | cons a l ih => simp [allNonNil, ih]

/-! ## The operations on a structure split at the key and at the value -/

theorem keySearch (pre post : List (Entry K V)) (key : K)
    (hpre : ∀ e ∈ pre, e.Key < key) (hpost : ∀ e ∈ post, key ≤ e.Key) :
    Search (pre ++ post).length
      (fun i => (index (pre ++ post) i).map (fun e => decide (e.Key ≥ key)))
      = some pre.length :=
  Search_split (fun e => decide (e.Key ≥ key)) pre post
    (by intro x hx; simpa using hpre x hx) (by intro x hx; simpa using hpost x hx)

theorem valueSearch (vpre vpost : List V) (value : V)
    (hpre : ∀ x ∈ vpre, x < value) (hpost : ∀ x ∈ vpost, value ≤ x) :
    Search (vpre ++ vpost).length
      (fun i => (index (vpre ++ vpost) i).map (fun x => decide (x ≥ value)))
      = some vpre.length :=
  Search_split (fun x => decide (x ≥ value)) vpre vpost
    (by intro x hx; simpa using hpre x hx) (by intro x hx; simpa using hpost x hx)

/-- The equality test after a search that stopped before a larger element, or
at the end, fails. -/
theorem test_absent {β α : Type} [LinearOrder α] (g : β → α) (pre post : List β) (t : α)
    (hpost : ∀ x ∈ post, t < g x) :
    (if pre.length < (pre ++ post).length then
      (index (pre ++ post) pre.length).map (fun e => decide (g e = t))
     else some false) = some false := by
  cases post with
  | nil => simp
  | cons e post =>
    have : g e ≠ t := ne_of_gt (hpost e (List.mem_cons_self _ _))
    simp [index_split, this]

/-- The equality test after a search that stopped at the target succeeds. -/
theorem test_present {β α : Type} [LinearOrder α] (g : β → α) (pre post : List β) (e : β)
    (t : α) (h : g e = t) :
    (if pre.length < (pre ++ e :: post).length then
      (index (pre ++ e :: post) pre.length).map (fun x => decide (g x = t))
     else some false) = some true := by
  simp [index_split, h]

theorem Add_absent_key (pre post : List (Entry K V)) (key : K) (value : V)
    (hpre : ∀ e ∈ pre, e.Key < key) (hpost : ∀ e ∈ post, key < e.Key) :
    Add ⟨pre ++ post⟩ key value = some ⟨pre ++ ⟨key, [value]⟩ :: post⟩ := by
  have hs := keySearch pre post key hpre (fun e he => le_of_lt (hpost e he))
  have ht := test_absent Entry.Key pre post key hpost
  have hi := shift_insert (pre.map some) (post.map some) none (some (⟨key, [value]⟩ : Entry K V))
  simp only [List.length_map, Option.bind_eq_some] at hi
  obtain ⟨b, hb1, hb2⟩ := hi
  simp only [Add, hs, ht, Option.bind_eq_bind, Option.some_bind, List.map_append, hb1, hb2]
  have : pre.map some ++ some (⟨key, [value]⟩ : Entry K V) :: post.map some
      = (pre ++ ⟨key, [value]⟩ :: post).map some := by simp
  rw [this, allNonNil_map_some]
  simp

theorem keySearch_present (pre post : List (Entry K V)) (key : K) (c : List V)
    (hpre : ∀ e ∈ pre, e.Key < key) (hpost : ∀ e ∈ post, key < e.Key) :
    Search (pre ++ ⟨key, c⟩ :: post).length
      (fun i => (index (pre ++ ⟨key, c⟩ :: post) i).map (fun e => decide (e.Key ≥ key)))
      = some pre.length := by
  apply keySearch pre (⟨key, c⟩ :: post) key hpre
  intro e he
  rcases List.mem_cons.mp he with h | h
  · rw [h]
  · exact le_of_lt (hpost e h)

theorem Add_absent_value (pre post : List (Entry K V)) (key : K) (value : V)
    (vpre vpost : List V)
    (hpre : ∀ e ∈ pre, e.Key < key) (hpost : ∀ e ∈ post, key < e.Key)
    (hvpre : ∀ x ∈ vpre, x < value) (hvpost : ∀ x ∈ vpost, value < x) :
    Add ⟨pre ++ ⟨key, vpre ++ vpost⟩ :: post⟩ key value
      = some ⟨pre ++ ⟨key, vpre ++ value :: vpost⟩ :: post⟩ := by
  have hs := keySearch_present pre post key (vpre ++ vpost) hpre hpost
  have ht := test_present Entry.Key pre post (⟨key, vpre ++ vpost⟩ : Entry K V) key rfl
  have hvs := valueSearch vpre vpost value hvpre (fun x hx => le_of_lt (hvpost x hx))
  have hvt := test_absent id vpre vpost value hvpost
  have hi := shift_insert vpre vpost value value
  simp only [Option.bind_eq_some] at hi
  obtain ⟨b, hb1, hb2⟩ := hi
  simp only [id] at hvt
  simp only [Add, hs, ht, Option.bind_eq_bind, Option.some_bind, if_true]
  rw [index_split pre]
  simp only [List.head?_cons, Option.some_bind, hvs, hvt, hb1, hb2, set_split]
  simp

theorem Add_present (pre post : List (Entry K V)) (key : K) (value : V)
    (vpre vpost : List V)
    (hpre : ∀ e ∈ pre, e.Key < key) (hpost : ∀ e ∈ post, key < e.Key)
    (hvpre : ∀ x ∈ vpre, x < value) (hvpost : ∀ x ∈ vpost, value < x) :
    Add ⟨pre ++ ⟨key, vpre ++ value :: vpost⟩ :: post⟩ key value
      = some ⟨pre ++ ⟨key, vpre ++ value :: vpost⟩ :: post⟩ := by
  have hs := keySearch_present pre post key (vpre ++ value :: vpost) hpre hpost
  have ht := test_present Entry.Key pre post (⟨key, vpre ++ value :: vpost⟩ : Entry K V) key rfl
  have hvs := valueSearch vpre (value :: vpost) value hvpre (by
    intro x hx
    rcases List.mem_cons.mp hx with h | h
    · rw [h]
    · exact le_of_lt (hvpost x h))
  have hvt := test_present id vpre vpost value value rfl
  simp only [id] at hvt
  simp only [Add, hs, ht, Option.bind_eq_bind, Option.some_bind, if_true]
  rw [index_split pre]
  simp only [List.head?_cons, Option.some_bind, hvs, hvt, if_true]

theorem Get_absent_key (pre post : List (Entry K V)) (key : K)
    (hpre : ∀ e ∈ pre, e.Key < key) (hpost : ∀ e ∈ post, key < e.Key) :
    Get ⟨pre ++ post⟩ key = some ([], false) := by
  have hs := keySearch pre post key hpre (fun e he => le_of_lt (hpost e he))
  have ht := test_absent Entry.Key pre post key hpost
  simp only [Get, hs, ht, Option.bind_eq_bind, Option.some_bind]
  simp

theorem Get_present_key (pre post : List (Entry K V)) (key : K) (c : List V)
    (hpre : ∀ e ∈ pre, e.Key < key) (hpost : ∀ e ∈ post, key < e.Key) :
    Get ⟨pre ++ ⟨key, c⟩ :: post⟩ key = some (c, true) := by
  have hs := keySearch_present pre post key c hpre hpost
  have ht := test_present Entry.Key pre post (⟨key, c⟩ : Entry K V) key rfl
  simp only [Get, hs, ht, Option.bind_eq_bind, Option.some_bind, if_true]
  rw [index_split pre]
  simp

theorem Exist_absent_key (pre post : List (Entry K V)) (key : K) (value : V)
    (hpre : ∀ e ∈ pre, e.Key < key) (hpost : ∀ e ∈ post, key < e.Key) :
    Exist ⟨pre ++ post⟩ key value = some false := by
  have hs := keySearch pre post key hpre (fun e he => le_of_lt (hpost e he))
  have ht := test_absent Entry.Key pre post key hpost
  simp only [Exist, hs, ht, Option.bind_eq_bind, Option.some_bind]
  simp

theorem Exist_absent_value (pre post : List (Entry K V)) (key : K) (value : V)
    (vpre vpost : List V)
    (hpre : ∀ e ∈ pre, e.Key < key) (hpost : ∀ e ∈ post, key < e.Key)
    (hvpre : ∀ x ∈ vpre, x < value) (hvpost : ∀ x ∈ vpost, value < x) :
    Exist ⟨pre ++ ⟨key, vpre ++ vpost⟩ :: post⟩ key value = some false := by
  have hs := keySearch_present pre post key (vpre ++ vpost) hpre hpost
  have ht := test_present Entry.Key pre post (⟨key, vpre ++ vpost⟩ : Entry K V) key rfl
  have hvs := valueSearch vpre vpost value hvpre (fun x hx => le_of_lt (hvpost x hx))
  have hvt := test_absent id vpre vpost value hvpost
  simp only [id] at hvt
  simp only [Exist, hs, ht, Option.bind_eq_bind, Option.some_bind, if_true]
  rw [index_split pre]
  simp only [List.head?_cons, Option.some_bind, hvs, hvt]

theorem Exist_present (pre post : List (Entry K V)) (key : K) (value : V)
    (vpre vpost : List V)
    (hpre : ∀ e ∈ pre, e.Key < key) (hpost : ∀ e ∈ post, key < e.Key)
    (hvpre : ∀ x ∈ vpre, x < value) (hvpost : ∀ x ∈ vpost, value < x) :
    Exist ⟨pre ++ ⟨key, vpre ++ value :: vpost⟩ :: post⟩ key value = some true := by
  have hs := keySearch_present pre post key (vpre ++ value :: vpost) hpre hpost
  have ht := test_present Entry.Key pre post (⟨key, vpre ++ value :: vpost⟩ : Entry K V) key rfl
  have hvs := valueSearch vpre (value :: vpost) value hvpre (by
    intro x hx
    rcases List.mem_cons.mp hx with h | h
    · rw [h]
    · exact le_of_lt (hvpost x h))
  have hvt := test_present id vpre vpost value value rfl
  simp only [id] at hvt
  simp only [Exist, hs, ht, Option.bind_eq_bind, Option.some_bind, if_true]
  rw [index_split pre]
  simp only [List.head?_cons, Option.some_bind, hvs, hvt]

theorem Delete_absent_key (pre post : List (Entry K V)) (key : K) (value : V)
    (hpre : ∀ e ∈ pre, e.Key < key) (hpost : ∀ e ∈ post, key < e.Key) :
    Delete ⟨pre ++ post⟩ key value = some ⟨pre ++ post⟩ := by
  have hs := keySearch pre post key hpre (fun e he => le_of_lt (hpost e he))
  have ht := test_absent Entry.Key pre post key hpost
  simp only [Delete, hs, ht, Option.bind_eq_bind, Option.some_bind]
  simp

theorem Delete_absent_value (pre post : List (Entry K V)) (key : K) (value : V)
    (vpre vpost : List V)
    (hpre : ∀ e ∈ pre, e.Key < key) (hpost : ∀ e ∈ post, key < e.Key)
    (hvpre : ∀ x ∈ vpre, x < value) (hvpost : ∀ x ∈ vpost, value < x) :
    Delete ⟨pre ++ ⟨key, vpre ++ vpost⟩ :: post⟩ key value
      = some ⟨pre ++ ⟨key, vpre ++ vpost⟩ :: post⟩ := by
  have hs := keySearch_present pre post key (vpre ++ vpost) hpre hpost
  have ht := test_present Entry.Key pre post (⟨key, vpre ++ vpost⟩ : Entry K V) key rfl
  have hvs := valueSearch vpre vpost value hvpre (fun x hx => le_of_lt (hvpost x hx))
  have hvt := test_absent id vpre vpost value hvpost
  simp only [id] at hvt
  simp only [Delete, hs, ht, Option.bind_eq_bind, Option.some_bind, if_true]
  rw [index_split pre]
  simp only [List.head?_cons, Option.some_bind, hvs, hvt]
  simp

theorem Delete_present (pre post : List (Entry K V)) (key : K) (value : V)
    (vpre vpost : List V)
    (hpre : ∀ e ∈ pre, e.Key < key) (hpost : ∀ e ∈ post, key < e.Key)
    (hvpre : ∀ x ∈ vpre, x < value) (hvpost : ∀ x ∈ vpost, value < x) :
    Delete ⟨pre ++ ⟨key, vpre ++ value :: vpost⟩ :: post⟩ key value
      = some (if vpre ++ vpost = [] then ⟨pre ++ post⟩
              else ⟨pre ++ ⟨key, vpre ++ vpost⟩ :: post⟩) := by
  have hs := keySearch_present pre post key (vpre ++ value :: vpost) hpre hpost
  have ht := test_present Entry.Key pre post (⟨key, vpre ++ value :: vpost⟩ : Entry K V) key rfl
  have hvs := valueSearch vpre (value :: vpost) value hvpre (by
    intro x hx
    rcases List.mem_cons.mp hx with h | h
    · rw [h]
    · exact le_of_lt (hvpost x h))
  have hvt := test_present id vpre vpost value value rfl
  simp only [id] at hvt
  simp only [Delete, hs, ht, Option.bind_eq_bind, Option.some_bind, if_true]
  rw [index_split pre]
  simp only [List.head?_cons, Option.some_bind, hvs, hvt, if_true, sliceTo_split,
    sliceFrom_split, set_split, List.length_eq_zero]
  by_cases hnil : vpre ++ vpost = []
  · simp only [hnil, if_true]
  · simp only [hnil, if_false]

/-! ## Views of a sorted structure -/

/-- A strictly ascending list splits around any target: the elements below
it, the target itself if it occurs, the elements above it. -/
theorem sorted_view {β α : Type} [LinearOrder α] (g : β → α) (t : α) :
    ∀ l : List β, (l.map g).Pairwise (· < ·) →
      ∃ pre post, (∀ x ∈ pre, g x < t) ∧ (∀ x ∈ post, t < g x) ∧
        (l = pre ++ post ∨ ∃ e, g e = t ∧ l = pre ++ e :: post) := by
  intro l
  induction l with
  | nil => intro _; exact ⟨[], [], by simp, by simp, Or.inl rfl⟩
  | cons a l ih =>
    intro hl
    rw [List.map_cons, List.pairwise_cons] at hl
    have hgt : ∀ x ∈ l, g a < g x := fun x hx => hl.1 (g x) (List.mem_map_of_mem g hx)
    rcases lt_trichotomy (g a) t with h | h | h
    · obtain ⟨pre, post, h1, h2, h3⟩ := ih hl.2
      refine ⟨a :: pre, post, ?_, h2, ?_⟩
      · intro x hx
        rcases List.mem_cons.mp hx with e | e
        · rw [e]; exact h
        · exact h1 x e
      · rcases h3 with e | ⟨e, he, hl⟩
        · exact Or.inl (by rw [e]; rfl)
        · exact Or.inr ⟨e, he, by rw [hl]; rfl⟩
    · exact ⟨[], l, by simp, fun x hx => h ▸ hgt x hx, Or.inr ⟨a, h, rfl⟩⟩
    · refine ⟨[], a :: l, by simp, ?_, Or.inl rfl⟩
      intro x hx
      rcases List.mem_cons.mp hx with e | e
      · rw [e]; exact h
      · exact lt_trans h (hgt x e)

theorem pairwise_insert {α : Type} (R : α → α → Prop) (pre post : List α) (a : α)
    (h : (pre ++ post).Pairwise R) (h1 : ∀ x ∈ pre, R x a) (h2 : ∀ x ∈ post, R a x) :
    (pre ++ a :: post).Pairwise R := by
  rw [List.pairwise_append] at h ⊢
  refine ⟨h.1, List.pairwise_cons.mpr ⟨h2, h.2.1⟩, ?_⟩
  intro x hx y hy
  rcases List.mem_cons.mp hy with e | e
  · rw [e]; exact h1 x hx
  · exact h.2.2 x hx y e

theorem pairwise_remove {α : Type} (R : α → α → Prop) (pre post : List α) (a : α)
    (h : (pre ++ a :: post).Pairwise R) : (pre ++ post).Pairwise R := by
  apply List.Pairwise.sublist _ h
  exact List.Sublist.append_left (List.sublist_cons_self a post) pre

theorem mem_pairsOf (l : List (Entry K V)) (q : K × V) :
    q ∈ pairsOf l ↔ ∃ e ∈ l, e.Key = q.1 ∧ q.2 ∈ e.Chain := by
  obtain ⟨k, v⟩ := q
  simp only [pairsOf, List.mem_flatMap, List.mem_map, Prod.mk.injEq]
  constructor
  · rintro ⟨e, he, v1, hv, hk, rfl⟩
    exact ⟨e, he, hk, hv⟩
  · rintro ⟨e, he, hk, hv⟩
    exact ⟨e, he, v, hv, hk, rfl⟩

theorem pairsOf_append (l1 l2 : List (Entry K V)) :
    pairsOf (l1 ++ l2) = pairsOf l1 ++ pairsOf l2 := by
  simp [pairsOf]

theorem pairsOf_cons (e : Entry K V) (l : List (Entry K V)) :
    pairsOf (e :: l) = e.Chain.map (fun v => (e.Key, v)) ++ pairsOf l := by
  simp [pairsOf]

theorem not_mem_pairsOf_of_lt (l : List (Entry K V)) (key : K) (v : V)
    (h : ∀ e ∈ l, e.Key < key) : (key, v) ∉ pairsOf l := by
  rw [mem_pairsOf]
  rintro ⟨e, he, hk, _⟩
  exact absurd hk (ne_of_lt (h e he))

theorem not_mem_pairsOf_of_gt (l : List (Entry K V)) (key : K) (v : V)
    (h : ∀ e ∈ l, key < e.Key) : (key, v) ∉ pairsOf l := by
  rw [mem_pairsOf]
  rintro ⟨e, he, hk, _⟩
  exact absurd hk (ne_of_gt (h e he))

/-- Every structure that satisfies the invariants has a view around every
pair. -/
theorem view_of_inv (m : CompactChain K V) (h : Inv m) (key : K) (value : V) :
    View key value m := by
  obtain ⟨l⟩ := m
  obtain ⟨pre, post, h1, h2, h3⟩ := sorted_view Entry.Key key l h.1
  rcases h3 with e | ⟨e, he, hl⟩
  · rw [e]; exact View.absentKey pre post h1 h2
  · obtain ⟨k, c⟩ := e
    simp only at he
    subst he
    have hc : c.Pairwise (· < ·) := h.2.1 ⟨k, c⟩ (by simp [hl])
    obtain ⟨vpre, vpost, g1, g2, g3⟩ := sorted_view id value c (by simpa using hc)
    rcases g3 with e | ⟨x, hx, hc⟩
    · rw [hl, e]; exact View.absentValue pre post vpre vpost h1 h2 g1 g2
    · simp only [id] at hx
      subst hx
      rw [hl, hc]; exact View.present pre post vpre vpost h1 h2 g1 g2

theorem Inv_insert_entry (pre post : List (Entry K V)) (key : K) (value : V)
    (h : Inv ⟨pre ++ post⟩)
    (hpre : ∀ e ∈ pre, e.Key < key) (hpost : ∀ e ∈ post, key < e.Key) :
    Inv ⟨pre ++ ⟨key, [value]⟩ :: post⟩ := by
  obtain ⟨h1, h2, h3⟩ := h
  refine ⟨?_, ?_, ?_⟩
  · simp only [SortedKeys, List.map_append, List.map_cons] at h1 ⊢
    apply pairwise_insert _ _ _ _ h1
    · intro x hx
      obtain ⟨e, he, rfl⟩ := List.mem_map.mp hx
      exact hpre e he
    · intro x hx
      obtain ⟨e, he, rfl⟩ := List.mem_map.mp hx
      exact hpost e he
  · intro e he
    simp only [List.mem_append, List.mem_cons] at he
    rcases he with he | rfl | he
    · exact h2 e (by simp [he])
    · simp
    · exact h2 e (by simp [he])
  · intro e he
    simp only [List.mem_append, List.mem_cons] at he
    rcases he with he | rfl | he
    · exact h3 e (by simp [he])
    · simp
    · exact h3 e (by simp [he])

theorem Inv_insert_value (pre post : List (Entry K V)) (key : K) (value : V)
    (vpre vpost : List V) (h : Inv ⟨pre ++ ⟨key, vpre ++ vpost⟩ :: post⟩)
    (hvpre : ∀ x ∈ vpre, x < value) (hvpost : ∀ x ∈ vpost, value < x) :
    Inv ⟨pre ++ ⟨key, vpre ++ value :: vpost⟩ :: post⟩ := by
  obtain ⟨h1, h2, h3⟩ := h
  refine ⟨?_, ?_, ?_⟩
  · simpa [SortedKeys] using h1
  · intro e he
    simp only [List.mem_append, List.mem_cons] at he
    rcases he with he | rfl | he
    · exact h2 e (by simp [he])
    · exact pairwise_insert _ _ _ _ (h2 ⟨key, vpre ++ vpost⟩ (by simp)) hvpre hvpost
    · exact h2 e (by simp [he])
  · intro e he
    simp only [List.mem_append, List.mem_cons] at he
    rcases he with he | rfl | he
    · exact h3 e (by simp [he])
    · simp
    · exact h3 e (by simp [he])

theorem Inv_remove_value (pre post : List (Entry K V)) (key : K) (value : V)
    (vpre vpost : List V) (h : Inv ⟨pre ++ ⟨key, vpre ++ value :: vpost⟩ :: post⟩)
    (hne : vpre ++ vpost ≠ []) :
    Inv ⟨pre ++ ⟨key, vpre ++ vpost⟩ :: post⟩ := by
  obtain ⟨h1, h2, h3⟩ := h
  refine ⟨?_, ?_, ?_⟩
  · simpa [SortedKeys] using h1
  · intro e he
    simp only [List.mem_append, List.mem_cons] at he
    rcases he with he | rfl | he
    · exact h2 e (by simp [he])
    · exact pairwise_remove _ _ _ value (h2 ⟨key, vpre ++ value :: vpost⟩ (by simp))
    · exact h2 e (by simp [he])
  · intro e he
    simp only [List.mem_append, List.mem_cons] at he
    rcases he with he | rfl | he
    · exact h3 e (by simp [he])
    · exact hne
    · exact h3 e (by simp [he])

theorem Inv_remove_entry (pre post : List (Entry K V)) (e : Entry K V)
    (h : Inv ⟨pre ++ e :: post⟩) : Inv ⟨pre ++ post⟩ := by
  obtain ⟨h1, h2, h3⟩ := h
  refine ⟨?_, ?_, ?_⟩
  · simp only [SortedKeys, List.map_append, List.map_cons] at h1 ⊢
    exact pairwise_remove _ _ _ _ h1
  · intro x hx
    simp only [List.mem_append] at hx
    rcases hx with hx | hx
    · exact h2 x (by simp [hx])
    · exact h2 x (by simp [hx])
  · intro x hx
    simp only [List.mem_append] at hx
    rcases hx with hx | hx
    · exact h3 x (by simp [hx])
    · exact h3 x (by simp [hx])

theorem mem_pairsOf_split (pre post : List (Entry K V)) (key : K) (c : List V)
    (q : K × V) :
    q ∈ pairsOf (pre ++ ⟨key, c⟩ :: post)
      ↔ q ∈ pairsOf pre ∨ (q.1 = key ∧ q.2 ∈ c) ∨ q ∈ pairsOf post := by
  obtain ⟨k, v⟩ := q
  rw [pairsOf_append, pairsOf_cons, List.mem_append, List.mem_append]
  simp only [List.mem_map, Prod.mk.injEq]
  constructor
  · rintro (h | ⟨x, hx, rfl, rfl⟩ | h)
    · exact Or.inl h
    · exact Or.inr (Or.inl ⟨rfl, hx⟩)
    · exact Or.inr (Or.inr h)
  · rintro (h | ⟨rfl, hv⟩ | h)
    · exact Or.inl h
    · exact Or.inr (Or.inl ⟨v, hv, rfl, rfl⟩)
    · exact Or.inr (Or.inr h)

/-! ## The operations on a structure that satisfies the invariants -/

/-- On a structure satisfying the invariants `Add` returns a structure that
satisfies them and stores the given pair next to the pairs stored before. -/
theorem Add_spec (m : CompactChain K V) (h : Inv m) (key : K) (value : V) :
    ∃ m1, Add m key value = some m1 ∧ Inv m1 ∧
      ∀ q, q ∈ toPairs m1 ↔ q = (key, value) ∨ q ∈ toPairs m := by
  have hv := view_of_inv m h key value
  cases hv with
  | absentKey pre post hpre hpost =>
    refine ⟨_, Add_absent_key pre post key value hpre hpost,
      Inv_insert_entry pre post key value h hpre hpost, ?_⟩
    intro q
    obtain ⟨k, v⟩ := q
    simp only [toPairs, mem_pairsOf_split]
    simp only [pairsOf_append, List.mem_append, List.mem_singleton, Prod.mk.injEq]
    tauto
  | absentValue pre post vpre vpost hpre hpost hvpre hvpost =>
    refine ⟨_, Add_absent_value pre post key value vpre vpost hpre hpost hvpre hvpost,
      Inv_insert_value pre post key value vpre vpost h hvpre hvpost, ?_⟩
    intro q
    obtain ⟨k, v⟩ := q
    simp only [toPairs, mem_pairsOf_split, List.mem_append, List.mem_cons, Prod.mk.injEq]
    tauto
  | present pre post vpre vpost hpre hpost hvpre hvpost =>
    refine ⟨_, Add_present pre post key value vpre vpost hpre hpost hvpre hvpost, h, ?_⟩
    intro q
    obtain ⟨k, v⟩ := q
    simp only [toPairs, mem_pairsOf_split, List.mem_append, List.mem_cons, Prod.mk.injEq]
    tauto

/-- On a structure satisfying the invariants `Delete` returns a structure
that satisfies them and stores the pairs stored before except the given one. -/
theorem Delete_spec (m : CompactChain K V) (h : Inv m) (key : K) (value : V) :
    ∃ m1, Delete m key value = some m1 ∧ Inv m1 ∧
      ∀ q, q ∈ toPairs m1 ↔ q ≠ (key, value) ∧ q ∈ toPairs m := by
  have hv := view_of_inv m h key value
  cases hv with
  | absentKey pre post hpre hpost =>
    refine ⟨_, Delete_absent_key pre post key value hpre hpost, h, ?_⟩
    intro q
    have h1 := not_mem_pairsOf_of_lt pre key value hpre
    have h2 := not_mem_pairsOf_of_gt post key value hpost
    simp only [toPairs, pairsOf_append, List.mem_append]
    constructor
    · intro hq
      refine ⟨?_, hq⟩
      rintro rfl
      tauto
    · exact fun hq => hq.2
  | absentValue pre post vpre vpost hpre hpost hvpre hvpost =>
    refine ⟨_, Delete_absent_value pre post key value vpre vpost hpre hpost hvpre hvpost, h, ?_⟩
    intro q
    have h1 := not_mem_pairsOf_of_lt pre key value hpre
    have h2 := not_mem_pairsOf_of_gt post key value hpost
    have h3 : value ∉ vpre := fun hx => lt_irrefl _ (hvpre value hx)
    have h4 : value ∉ vpost := fun hx => lt_irrefl _ (hvpost value hx)
    simp only [toPairs, mem_pairsOf_split, List.mem_append]
    constructor
    · intro hq
      refine ⟨?_, hq⟩
      rintro rfl
      tauto
    · exact fun hq => hq.2
  | present pre post vpre vpost hpre hpost hvpre hvpost =>
    have h1 := not_mem_pairsOf_of_lt pre key value hpre
    have h2 := not_mem_pairsOf_of_gt post key value hpost
    have h3 : value ∉ vpre := fun hx => lt_irrefl _ (hvpre value hx)
    have h4 : value ∉ vpost := fun hx => lt_irrefl _ (hvpost value hx)
    refine ⟨_, Delete_present pre post key value vpre vpost hpre hpost hvpre hvpost, ?_, ?_⟩
    · by_cases hnil : vpre ++ vpost = []
      · rw [if_pos hnil]; exact Inv_remove_entry pre post _ h
      · rw [if_neg hnil]; exact Inv_remove_value pre post key value vpre vpost h hnil
    · intro q
      obtain ⟨k, v⟩ := q
      by_cases hnil : vpre ++ vpost = []
      · rw [if_pos hnil]
        obtain ⟨e1, e2⟩ := List.append_eq_nil.mp hnil
        subst e1 e2
        simp only [toPairs, mem_pairsOf_split]
        simp only [pairsOf_append, List.mem_append, List.nil_append,
          List.mem_singleton, Prod.mk.injEq, ne_eq]
        constructor
        · intro hq
          refine ⟨?_, by tauto⟩
          rintro ⟨rfl, rfl⟩
          tauto
        · tauto
      · rw [if_neg hnil]
        simp only [toPairs, mem_pairsOf_split, List.mem_append, List.mem_cons, Prod.mk.injEq,
          ne_eq]
        constructor
        · intro hq
          refine ⟨?_, by tauto⟩
          rintro ⟨rfl, rfl⟩
          tauto
        · tauto

/-- On a structure satisfying the invariants `Exist` decides membership of
the pair among the stored pairs. -/
theorem Exist_spec (m : CompactChain K V) (h : Inv m) (key : K) (value : V) :
    Exist m key value = some (decide ((key, value) ∈ toPairs m)) := by
  have hv := view_of_inv m h key value
  cases hv with
  | absentKey pre post hpre hpost =>
    have h1 := not_mem_pairsOf_of_lt pre key value hpre
    have h2 := not_mem_pairsOf_of_gt post key value hpost
    rw [Exist_absent_key pre post key value hpre hpost]
    simp [toPairs, pairsOf_append, h1, h2]
  | absentValue pre post vpre vpost hpre hpost hvpre hvpost =>
    have h1 := not_mem_pairsOf_of_lt pre key value hpre
    have h2 := not_mem_pairsOf_of_gt post key value hpost
    have h3 : value ∉ vpre := fun hx => lt_irrefl _ (hvpre value hx)
    have h4 : value ∉ vpost := fun hx => lt_irrefl _ (hvpost value hx)
    rw [Exist_absent_value pre post key value vpre vpost hpre hpost hvpre hvpost]
    simp [toPairs, mem_pairsOf_split, h1, h2, h3, h4]
  | present pre post vpre vpost hpre hpost hvpre hvpost =>
    rw [Exist_present pre post key value vpre vpost hpre hpost hvpre hvpost]
    simp [toPairs, mem_pairsOf_split]

/-- On a structure satisfying the invariants `Get` returns the strictly
ascending list of the values stored with the key, and `true` exactly when
there is one. -/
theorem Get_spec (m : CompactChain K V) (h : Inv m) (key : K) :
    ∃ vals found, Get m key = some (vals, found) ∧ vals.Pairwise (· < ·) ∧
      (∀ v, v ∈ vals ↔ (key, v) ∈ toPairs m) ∧ (found = true ↔ vals ≠ []) ∧
      (found = true → ⟨key, vals⟩ ∈ m.buffers) := by
  obtain ⟨l⟩ := m
  obtain ⟨pre, post, hpre, hpost, h3⟩ := sorted_view Entry.Key key l h.1
  rcases h3 with e | ⟨e, he, hl⟩
  · subst e
    refine ⟨[], false, Get_absent_key pre post key hpre hpost, List.Pairwise.nil, ?_, by simp,
      by simp⟩
    intro v
    have h1 := not_mem_pairsOf_of_lt pre key v hpre
    have h2 := not_mem_pairsOf_of_gt post key v hpost
    simp [toPairs, pairsOf_append, h1, h2]
  · obtain ⟨k, c⟩ := e
    simp only at he
    subst he hl
    refine ⟨c, true, Get_present_key pre post k c hpre hpost, h.2.1 ⟨k, c⟩ (by simp), ?_, ?_,
      by simp⟩
    · intro v
      have h1 := not_mem_pairsOf_of_lt pre k v hpre
      have h2 := not_mem_pairsOf_of_gt post k v hpost
      simp [toPairs, mem_pairsOf_split, h1, h2]
    · simpa using h.2.2 ⟨k, c⟩ (by simp)

/-! ## Reachable structures -/

theorem Inv_new : Inv (NewCompactChain : CompactChain K V) := by
  refine ⟨?_, ?_, ?_⟩
  · simp [SortedKeys, NewCompactChain]
  · intro e he; simp [NewCompactChain] at he
  · intro e he; simp [NewCompactChain] at he

/-- One call on a structure that satisfies the invariants returns a structure
that satisfies them. -/
theorem step_inv (m : CompactChain K V) (h : Inv m) (op : Op K V) :
    ∃ m1, step m op = some m1 ∧ Inv m1 := by
  cases op with
  | add key value =>
    obtain ⟨m1, h1, h2, _⟩ := Add_spec m h key value
    exact ⟨m1, h1, h2⟩
  | delete key value =>
    obtain ⟨m1, h1, h2, _⟩ := Delete_spec m h key value
    exact ⟨m1, h1, h2⟩

theorem run_append (m : CompactChain K V) (ops1 ops2 : List (Op K V)) :
    run m (ops1 ++ ops2) = (run m ops1).bind (fun m1 => run m1 ops2) := by
  induction ops1 generalizing m with
  | nil => simp [run]
  | cons op ops1 ih =>
    simp only [List.cons_append, run]
    cases hs : step m op with
    | none => simp
    | some m1 => simp [ih]

/-- Every finite sequence of calls runs to completion on a structure that
satisfies the invariants, and the result satisfies them. -/
theorem run_inv (ops : List (Op K V)) :
    ∀ m : CompactChain K V, Inv m → ∃ m1, run m ops = some m1 ∧ Inv m1 := by
  induction ops with
  | nil => intro m h; exact ⟨m, rfl, h⟩
  | cons op ops ih =>
    intro m h
    obtain ⟨m1, h1, h2⟩ := step_inv m h op
    obtain ⟨m2, g1, g2⟩ := ih m1 h2
    exact ⟨m2, by simp [run, h1, g1], g2⟩

theorem reachable_inv {m : CompactChain K V} (h : Reachable m) : Inv m := by
  obtain ⟨ops, hops⟩ := h
  obtain ⟨m1, h1, h2⟩ := run_inv ops (NewCompactChain : CompactChain K V) Inv_new
  rw [h1] at hops
  cases hops
  exact h2

theorem reachable_add {m m1 : CompactChain K V} (h : Reachable m) (key : K) (value : V)
    (h1 : Add m key value = some m1) : Reachable m1 := by
  obtain ⟨ops, hops⟩ := h
  exact ⟨ops ++ [Op.add key value], by simp [run_append, hops, run, step, h1]⟩

theorem reachable_delete {m m1 : CompactChain K V} (h : Reachable m) (key : K) (value : V)
    (h1 : Delete m key value = some m1) : Reachable m1 := by
  obtain ⟨ops, hops⟩ := h
  exact ⟨ops ++ [Op.delete key value], by simp [run_append, hops, run, step, h1]⟩

/-- Two strictly ascending lists with the same elements are equal. -/
theorem sorted_ext {α : Type} [LinearOrder α] (l1 l2 : List α)
    (h1 : l1.Pairwise (· < ·)) (h2 : l2.Pairwise (· < ·))
    (h : ∀ x, x ∈ l1 ↔ x ∈ l2) : l1 = l2 := by
  have n1 : l1.Nodup := h1.imp (fun hab => ne_of_lt hab)
  have n2 : l2.Nodup := h2.imp (fun hab => ne_of_lt hab)
  exact List.eq_of_perm_of_sorted ((List.perm_ext_iff_of_nodup n1 n2).mpr h) h1 h2

/-- The result of `Get` depends only on the pairs stored with the key. -/
theorem Get_congr (m m1 : CompactChain K V) (h : Inv m) (h1 : Inv m1) (key : K)
    (hq : ∀ v, (key, v) ∈ toPairs m ↔ (key, v) ∈ toPairs m1) :
    Get m key = Get m1 key := by
  obtain ⟨vals, found, g1, g2, g3, g4, _⟩ := Get_spec m h key
  obtain ⟨vals1, found1, f1, f2, f3, f4, _⟩ := Get_spec m1 h1 key
  have e : vals = vals1 := sorted_ext vals vals1 g2 f2 (fun x => by rw [g3, f3, hq])
  subst e
  have e2 : found = found1 := by
    cases found <;> cases found1 <;> simp_all
  rw [g1, f1, e2]

/-! ## Traversals -/

/-- The calls of `IterateKeys` extend the log by a prefix of the entries. -/
theorem iterateKeysLoop_log {σ : Type} (fn : σ → K → List V → Bool × σ) :
    ∀ (l : List (Entry K V)) (s : σ) (log : List (K × List V)),
      ∃ t, (iterateKeysLoop (loggedKeys fn) l (s, log)).2 = log ++ t ∧
        t <+: l.map (fun e => (e.Key, e.Chain)) := by
  intro l
  induction l with
  | nil => intro s log; exact ⟨[], by simp [iterateKeysLoop], List.nil_prefix⟩
  | cons e l ih =>
    intro s log
    by_cases hc : (fn s e.Key e.Chain).1 = true
    · obtain ⟨t, h1, h2⟩ := ih (fn s e.Key e.Chain).2 (log ++ [(e.Key, e.Chain)])
      refine ⟨(e.Key, e.Chain) :: t, ?_, ?_⟩
      · simp only [iterateKeysLoop, loggedKeys, hc, Bool.not_true, Bool.false_eq_true, if_false]
        rw [h1]; simp
      · simpa [List.prefix_cons_inj] using h2
    · refine ⟨[(e.Key, e.Chain)], ?_, ?_⟩
      · simp only [iterateKeysLoop, loggedKeys]
        simp [hc]
      · simp [List.prefix_iff_eq_take]

/-- A visitor that never stops is called by `IterateKeys` on every entry. -/
theorem iterateKeysLoop_all {σ : Type} (fn : σ → K → List V → Bool × σ)
    (hfn : ∀ s key values, (fn s key values).1 = true) :
    ∀ (l : List (Entry K V)) (s : σ) (log : List (K × List V)),
      (iterateKeysLoop (loggedKeys fn) l (s, log)).2
        = log ++ l.map (fun e => (e.Key, e.Chain)) := by
  intro l
  induction l with
  | nil => intro s log; simp [iterateKeysLoop]
  | cons e l ih =>
    intro s log
    simp only [iterateKeysLoop, loggedKeys, hfn, Bool.not_true, Bool.false_eq_true, if_false]
    rw [ih]; simp

/-! ## The invariants on reachable structures -/

/-- C1, sort invariant.  In every structure obtained from `NewCompactChain` by
`Add` and `Delete` calls the keys of the entries are strictly ascending and
without duplicates, and every chain is strictly ascending and without
duplicates.  The calls of `IterateKeys`, for any visitor, carry strictly
ascending keys and strictly ascending chains, and with a visitor that never
stops they are exactly the entries in storage order. -/
theorem sort_invariant (m : CompactChain K V) (h : Reachable m) :
    SortedKeys m ∧ SortedChains m ∧
    (m.buffers.map Entry.Key).Nodup ∧ (∀ e ∈ m.buffers, e.Chain.Nodup) ∧
    ∀ (σ : Type) (fn : σ → K → List V → Bool × σ) (s : σ),
      ((IterateKeys m (loggedKeys fn) (s, [])).2.map Prod.fst).Pairwise (· < ·) ∧
      (∀ c ∈ (IterateKeys m (loggedKeys fn) (s, [])).2, c.2.Pairwise (· < ·)) ∧
      ((∀ s1 key values, (fn s1 key values).1 = true) →
        (IterateKeys m (loggedKeys fn) (s, [])).2
          = m.buffers.map (fun e => (e.Key, e.Chain))) := by
  obtain ⟨h1, h2, _⟩ := (reachable_inv h)
  refine ⟨h1, h2, ?_, ?_, ?_⟩
  · exact h1.imp (fun hab => ne_of_lt hab)
  · intro e he
    exact (h2 e he).imp (fun hab => ne_of_lt hab)
  · intro σ fn s
    obtain ⟨t, ht, hp⟩ := iterateKeysLoop_log fn m.buffers s []
    simp only [IterateKeys, ht, List.nil_append]
    refine ⟨?_, ?_, ?_⟩
    · have hk : (m.buffers.map (fun e => (e.Key, e.Chain))).map Prod.fst
          = m.buffers.map Entry.Key := by simp
      have hs : (t.map Prod.fst).Sublist (m.buffers.map Entry.Key) := by
        rw [← hk]; exact hp.sublist.map _
      exact List.Pairwise.sublist hs h1
    · intro c hc
      have hc1 := hp.subset hc
      obtain ⟨e, he, rfl⟩ := List.mem_map.mp hc1
      exact h2 e he
    · intro hfn
      have := iterateKeysLoop_all fn hfn m.buffers s []
      rw [ht] at this
      simpa using this

theorem sort_invariant_witness :
    Reachable (⟨[⟨1, [100, 200]⟩, ⟨2, [300]⟩]⟩ : CompactChain Nat Nat) ∧
    SortedKeys (⟨[⟨1, [100, 200]⟩, ⟨2, [300]⟩]⟩ : CompactChain Nat Nat) :=
  ⟨⟨[Op.add 2 300, Op.add 1 200, Op.add 1 100], by decide⟩,
   (sort_invariant _ ⟨[Op.add 2 300, Op.add 1 200, Op.add 1 100], by decide⟩).1⟩

/-! ## Round trips of `Add` and `Delete` -/

/-- C2, Add/Get round trip.  On a reachable structure `Add(k, v)` returns a
structure on which `Exist(k, v)` is true, `Get(k)` reports the key as found,
and `v` occurs exactly once in the values `Get(k)` returns. -/
theorem add_get_round_trip (m : CompactChain K V) (h : Reachable m) (k : K) (v : V) :
    ∃ m1 vals, Add m k v = some m1 ∧ Exist m1 k v = some true ∧
      Get m1 k = some (vals, true) ∧ vals.count v = 1 := by
  obtain ⟨m1, h1, h2, h3⟩ := Add_spec m (reachable_inv h) k v
  obtain ⟨vals, found, g1, g2, g3, g4, _⟩ := Get_spec m1 h2 k
  have hmem : (k, v) ∈ toPairs m1 := (h3 (k, v)).mpr (Or.inl rfl)
  have hv : v ∈ vals := (g3 v).mpr hmem
  have hf : found = true := g4.mpr (List.ne_nil_of_mem hv)
  subst hf
  refine ⟨m1, vals, h1, ?_, g1, ?_⟩
  · rw [Exist_spec m1 h2 k v]; simp [hmem]
  · exact List.count_eq_one_of_mem (g2.imp (fun hab => ne_of_lt hab)) hv

theorem add_get_round_trip_witness :
    ∃ m1 vals, Add (⟨[⟨1, [100, 300]⟩]⟩ : CompactChain Nat Nat) 1 200 = some m1 ∧
      Exist m1 1 200 = some true ∧ Get m1 1 = some (vals, true) ∧ vals.count 200 = 1 :=
  add_get_round_trip _ ⟨[Op.add 1 300, Op.add 1 100], by decide⟩ 1 200

/-- C3, idempotence of `Add`.  On a reachable structure `Add(k, v)` returns a
structure on which a second `Add(k, v)` returns that same structure, so the
second call changes neither `Count()` nor `Get(k)`; and where `Exist(k, v)`
already holds, `Add(k, v)` returns the structure unchanged. -/
theorem add_idempotent (m : CompactChain K V) (h : Reachable m) (k : K) (v : V) :
    (∃ m1, Add m k v = some m1 ∧ Add m1 k v = some m1 ∧
      (∀ m2, Add m1 k v = some m2 → Count m2 = Count m1 ∧ Get m2 k = Get m1 k)) ∧
    (Exist m k v = some true → Add m k v = some m) := by
  have key : ∀ m0 : CompactChain K V, Inv m0 → Exist m0 k v = some true →
      Add m0 k v = some m0 := by
    intro m0 h0 he
    have hv := view_of_inv m0 h0 k v
    cases hv with
    | absentKey pre post hpre hpost =>
      rw [Exist_absent_key pre post k v hpre hpost] at he
      simp at he
    | absentValue pre post vpre vpost hpre hpost hvpre hvpost =>
      rw [Exist_absent_value pre post k v vpre vpost hpre hpost hvpre hvpost] at he
      simp at he
    | present pre post vpre vpost hpre hpost hvpre hvpost =>
      exact Add_present pre post k v vpre vpost hpre hpost hvpre hvpost
  refine ⟨?_, key m (reachable_inv h)⟩
  obtain ⟨m1, h1, h2, h3⟩ := Add_spec m (reachable_inv h) k v
  have he : Exist m1 k v = some true := by
    rw [Exist_spec m1 h2 k v]; simp [(h3 (k, v)).mpr (Or.inl rfl)]
  have h4 := key m1 h2 he
  refine ⟨m1, h1, h4, ?_⟩
  intro m2 hm2
  rw [h4] at hm2
  cases hm2
  exact ⟨rfl, rfl⟩

theorem add_idempotent_witness :
    (∃ m1, Add (⟨[⟨1, [100]⟩, ⟨2, [400]⟩]⟩ : CompactChain Nat Nat) 1 200 = some m1 ∧
      Add m1 1 200 = some m1 ∧
      (∀ m2, Add m1 1 200 = some m2 → Count m2 = Count m1 ∧ Get m2 1 = Get m1 1)) ∧
    (Exist (⟨[⟨1, [100]⟩, ⟨2, [400]⟩]⟩ : CompactChain Nat Nat) 1 200 = some true →
      Add (⟨[⟨1, [100]⟩, ⟨2, [400]⟩]⟩ : CompactChain Nat Nat) 1 200
        = some ⟨[⟨1, [100]⟩, ⟨2, [400]⟩]⟩) :=
  add_idempotent _ ⟨[Op.add 1 100, Op.add 2 400], by decide⟩ 1 200

/-- C4, Delete correctness.  On a reachable structure `Delete(k, v)` returns a
structure on which `Exist(k, v)` is false; in particular so does `Add(k, v)`
followed by `Delete(k, v)`. -/
theorem delete_correct (m : CompactChain K V) (h : Reachable m) (k : K) (v : V) :
    (∃ m1, Delete m k v = some m1 ∧ Exist m1 k v = some false) ∧
    (∃ m1 m2, Add m k v = some m1 ∧ Delete m1 k v = some m2 ∧
      Exist m2 k v = some false) := by
  have key : ∀ m0 : CompactChain K V, Inv m0 →
      ∃ m1, Delete m0 k v = some m1 ∧ Exist m1 k v = some false := by
    intro m0 h0
    obtain ⟨m1, h1, h2, h3⟩ := Delete_spec m0 h0 k v
    refine ⟨m1, h1, ?_⟩
    have hn : (k, v) ∉ toPairs m1 := fun hq => ((h3 (k, v)).mp hq).1 rfl
    rw [Exist_spec m1 h2 k v]; simp [hn]
  refine ⟨key m (reachable_inv h), ?_⟩
  obtain ⟨m1, h1, h2, _⟩ := Add_spec m (reachable_inv h) k v
  obtain ⟨m2, g1, g2⟩ := key m1 h2
  exact ⟨m1, m2, h1, g1, g2⟩

theorem delete_correct_witness :
    (∃ m1, Delete (⟨[⟨1, [100, 200]⟩]⟩ : CompactChain Nat Nat) 1 100 = some m1 ∧
      Exist m1 1 100 = some false) ∧
    (∃ m1 m2, Add (⟨[⟨1, [100, 200]⟩]⟩ : CompactChain Nat Nat) 1 100 = some m1 ∧
      Delete m1 1 100 = some m2 ∧ Exist m2 1 100 = some false) :=
  delete_correct _ ⟨[Op.add 1 100, Op.add 1 200], by decide⟩ 1 100

/-- C5, deleting the last value removes the key.  On a reachable structure on
which `Get(k)` returns exactly `[v]`, `Delete(k, v)` returns a structure on
which `Get(k)` returns no values and `found = false`, and on which `Get`
returns the same result as before for every other key. -/
theorem delete_last_value (m : CompactChain K V) (h : Reachable m) (k : K) (v : V)
    (hg : Get m k = some ([v], true)) :
    ∃ m1, Delete m k v = some m1 ∧ Get m1 k = some ([], false) ∧
      ∀ k1, k1 ≠ k → Get m1 k1 = Get m k1 := by
  obtain ⟨m1, h1, h2, h3⟩ := Delete_spec m (reachable_inv h) k v
  refine ⟨m1, h1, ?_, ?_⟩
  · obtain ⟨vals, found, g1, _, g3, _, _⟩ := Get_spec m (reachable_inv h) k
    rw [hg] at g1
    simp only [Option.some.injEq, Prod.mk.injEq] at g1
    obtain ⟨e1, _⟩ := g1
    subst e1
    obtain ⟨vals1, found1, f1, _, f3, f4, _⟩ := Get_spec m1 h2 k
    have hnil : vals1 = [] := by
      apply List.eq_nil_iff_forall_not_mem.mpr
      intro x hx
      have hx1 := (h3 (k, x)).mp ((f3 x).mp hx)
      have hx2 : x = v := by simpa using (g3 x).mpr hx1.2
      exact hx1.1 (by rw [hx2])
    subst hnil
    have hf : found1 = false := by
      cases found1
      · rfl
      · exact absurd rfl (f4.mp rfl)
    rw [f1, hf]
  · intro k1 hk
    apply Get_congr m1 m h2 (reachable_inv h) k1
    intro x
    rw [h3]
    constructor
    · exact fun hq => hq.2
    · intro hq
      refine ⟨?_, hq⟩
      intro e
      exact hk (congrArg Prod.fst e)

theorem delete_last_value_witness :
    Get (⟨[⟨1, [200]⟩, ⟨2, [300]⟩]⟩ : CompactChain Nat Nat) 1 = some ([200], true) ∧
    ∃ m1, Delete (⟨[⟨1, [200]⟩, ⟨2, [300]⟩]⟩ : CompactChain Nat Nat) 1 200 = some m1 ∧
      Get m1 1 = some ([], false) ∧
      ∀ k1, k1 ≠ 1 → Get m1 k1 = Get (⟨[⟨1, [200]⟩, ⟨2, [300]⟩]⟩ : CompactChain Nat Nat) k1 :=
  ⟨by decide,
   delete_last_value _ ⟨[Op.add 1 100, Op.add 1 200, Op.add 2 300, Op.delete 1 100], by decide⟩
     1 200 (by decide)⟩

/-- C6, no empty entry.  In every structure obtained from `NewCompactChain`
by `Add` and `Delete` calls no entry has an empty chain, so whenever `Get(k)`
returns `found = true` the returned sequence is not empty. -/
theorem no_empty_entry (m : CompactChain K V) (h : Reachable m) :
    NoEmptyChain m ∧ ∀ k vals, Get m k = some (vals, true) → vals ≠ [] := by
  refine ⟨(reachable_inv h).2.2, ?_⟩
  intro k vals hg
  obtain ⟨vals1, found1, g1, _, _, g4, _⟩ := Get_spec m (reachable_inv h) k
  rw [hg] at g1
  simp only [Option.some.injEq, Prod.mk.injEq] at g1
  obtain ⟨e1, e2⟩ := g1
  subst e1 e2
  exact g4.mp rfl

theorem no_empty_entry_witness :
    NoEmptyChain (⟨[⟨2, [300]⟩]⟩ : CompactChain Nat Nat) ∧
    ∀ k vals, Get (⟨[⟨2, [300]⟩]⟩ : CompactChain Nat Nat) k = some (vals, true) → vals ≠ [] :=
  no_empty_entry _ ⟨[Op.add 1 100, Op.add 2 300, Op.delete 1 100], by decide⟩

/-- C7, deleting an absent pair.  On a reachable structure on which
`Exist(k, v)` is false, `Delete(k, v)` returns the structure unchanged: the
same entries, the same chains, the same count. -/
theorem delete_absent_noop (m : CompactChain K V) (h : Reachable m) (k : K) (v : V)
    (he : Exist m k v = some false) : Delete m k v = some m := by
  have hv := view_of_inv m (reachable_inv h) k v
  cases hv with
  | absentKey pre post hpre hpost =>
    exact Delete_absent_key pre post k v hpre hpost
  | absentValue pre post vpre vpost hpre hpost hvpre hvpost =>
    exact Delete_absent_value pre post k v vpre vpost hpre hpost hvpre hvpost
  | present pre post vpre vpost hpre hpost hvpre hvpost =>
    rw [Exist_present pre post k v vpre vpost hpre hpost hvpre hvpost] at he
    simp at he

theorem delete_absent_noop_witness :
    Exist (⟨[⟨1, [100, 200]⟩, ⟨2, [300]⟩]⟩ : CompactChain Nat Nat) 1 300 = some false ∧
    Exist (⟨[⟨1, [100, 200]⟩, ⟨2, [300]⟩]⟩ : CompactChain Nat Nat) 3 100 = some false ∧
    Delete (⟨[⟨1, [100, 200]⟩, ⟨2, [300]⟩]⟩ : CompactChain Nat Nat) 1 300
      = some ⟨[⟨1, [100, 200]⟩, ⟨2, [300]⟩]⟩ :=
  ⟨by decide, by decide,
   delete_absent_noop _ ⟨[Op.add 1 100, Op.add 1 200, Op.add 2 300], by decide⟩ 1 300
     (by decide)⟩

/-! ## Stored pairs and sequences of calls -/

theorem Live_nil (q : K × V) : ¬ Live ([] : List (Op K V)) q := by
  simp [Live, mostRecent]

theorem Live_snoc_add (ops : List (Op K V)) (key : K) (value : V) (q : K × V) :
    Live (ops ++ [Op.add key value]) q ↔ q = (key, value) ∨ Live ops q := by
  obtain ⟨k, v⟩ := q
  simp only [Live, mostRecent, List.reverse_append, List.reverse_cons, List.reverse_nil,
    List.nil_append, List.singleton_append, List.find?_cons, Op.pair]
  by_cases hq : (key, value) = (k, v)
  · simp only [hq, decide_True]
    simp only [Prod.mk.injEq] at hq
    simp [hq.1, hq.2]
  · simp only [hq, decide_False]
    have : ¬ (k, v) = (key, value) := fun e => hq e.symm
    simp [this]

theorem Live_snoc_delete (ops : List (Op K V)) (key : K) (value : V) (q : K × V) :
    Live (ops ++ [Op.delete key value]) q ↔ q ≠ (key, value) ∧ Live ops q := by
  obtain ⟨k, v⟩ := q
  simp only [Live, mostRecent, List.reverse_append, List.reverse_cons, List.reverse_nil,
    List.nil_append, List.singleton_append, List.find?_cons, Op.pair]
  by_cases hq : (key, value) = (k, v)
  · simp only [hq, decide_True]
    simp
  · simp only [hq, decide_False]
    have : ¬ (k, v) = (key, value) := fun e => hq e.symm
    simp [this]

/-- Every sequence of calls on a new structure runs to completion; the result
satisfies the invariants and stores exactly the pairs whose most recent call
is an `Add`. -/
theorem run_live (ops : List (Op K V)) :
    ∃ m, run (NewCompactChain : CompactChain K V) ops = some m ∧ Inv m ∧
      ∀ q, q ∈ toPairs m ↔ Live ops q := by
  induction ops using List.reverseRecOn with
  | nil =>
    refine ⟨NewCompactChain, rfl, Inv_new, ?_⟩
    intro q
    simp [toPairs, pairsOf, NewCompactChain, Live_nil]
  | append_singleton ops op ih =>
    obtain ⟨m, h1, h2, h3⟩ := ih
    cases op with
    | add key value =>
      obtain ⟨m1, g1, g2, g3⟩ := Add_spec m h2 key value
      refine ⟨m1, by simp [run_append, h1, run, step, g1], g2, ?_⟩
      intro q
      rw [g3, Live_snoc_add, h3]
    | delete key value =>
      obtain ⟨m1, g1, g2, g3⟩ := Delete_spec m h2 key value
      refine ⟨m1, by simp [run_append, h1, run, step, g1], g2, ?_⟩
      intro q
      rw [g3, Live_snoc_delete, h3]

theorem foldl_count (l : List (Entry K V)) (a : Nat) :
    l.foldl (fun count entry => count + entry.Chain.length) a
      = a + (l.map (fun e => e.Chain.length)).sum := by
  induction l generalizing a with
  | nil => simp
  | cons e l ih => simp [ih, Nat.add_assoc]

theorem Count_eq_sum (m : CompactChain K V) :
    Count m = (m.buffers.map (fun e => e.Chain.length)).sum := by
  simp [Count, foldl_count]

theorem length_pairsOf (l : List (Entry K V)) :
    (pairsOf l).length = (l.map (fun e => e.Chain.length)).sum := by
  induction l with
  | nil => simp [pairsOf]
  | cons e l ih => simp [pairsOf_cons, ih]

theorem Count_eq_length (m : CompactChain K V) : Count m = (toPairs m).length := by
  rw [Count_eq_sum, toPairs, length_pairsOf]

theorem LexLt_irrefl (a : K × V) : ¬ LexLt a a := by
  rintro (h | ⟨_, h⟩) <;> exact lt_irrefl _ h

/-- The stored pairs of a structure with sorted keys and sorted chains are in
strictly ascending lexicographic order. -/
theorem pairsOf_lex (l : List (Entry K V))
    (h1 : (l.map Entry.Key).Pairwise (· < ·)) (h2 : ∀ e ∈ l, e.Chain.Pairwise (· < ·)) :
    (pairsOf l).Pairwise LexLt := by
  induction l with
  | nil => simp [pairsOf]
  | cons e l ih =>
    rw [List.map_cons, List.pairwise_cons] at h1
    rw [pairsOf_cons, List.pairwise_append]
    refine ⟨?_, ih h1.2 (fun x hx => h2 x (List.mem_cons_of_mem _ hx)), ?_⟩
    · rw [List.pairwise_map]
      exact (h2 e (List.mem_cons_self _ _)).imp (fun hab => Or.inr ⟨rfl, hab⟩)
    · intro a ha b hb
      obtain ⟨x, _, rfl⟩ := List.mem_map.mp ha
      obtain ⟨e1, he1, hk, _⟩ := (mem_pairsOf l b).mp hb
      exact Or.inl (by rw [← hk]; exact h1.1 _ (List.mem_map_of_mem _ he1))

theorem toPairs_lex (m : CompactChain K V) (h : Inv m) : (toPairs m).Pairwise LexLt :=
  pairsOf_lex m.buffers h.1 h.2.1

theorem toPairs_nodup (m : CompactChain K V) (h : Inv m) : (toPairs m).Nodup := by
  apply (toPairs_lex m h).imp
  intro a b hab e
  rw [e] at hab
  exact LexLt_irrefl _ hab

/-- C8, count consistency.  Every finite sequence of `Add` and `Delete` calls
on a new structure runs to a structure whose `Count()` is the number of
distinct pairs whose most recent call in the sequence is an `Add`, and is the
sum of the chain lengths over the entries; the count of a new structure
is 0. -/
theorem count_consistency (ops : List (Op K V)) :
    ∃ m, run (NewCompactChain : CompactChain K V) ops = some m ∧
      Count m = Set.ncard {q : K × V | Live ops q} ∧
      Count m = (m.buffers.map (fun e => e.Chain.length)).sum ∧
      Count (NewCompactChain : CompactChain K V) = 0 := by
  obtain ⟨m, h1, h2, h3⟩ := run_live ops
  refine ⟨m, h1, ?_, Count_eq_sum m, rfl⟩
  have hs : {q : K × V | Live ops q} = ((toPairs m).toFinset : Set (K × V)) := by
    ext q
    simp [h3]
  rw [hs, Set.ncard_coe_Finset, List.toFinset_card_of_nodup (toPairs_nodup m h2),
    Count_eq_length]

/-- C9, `Get` returns exactly the key's values.  Every finite sequence of
`Add` and `Delete` calls on a new structure runs to a structure on which
`Get(k)` reports `found = true` exactly when some pair `(k, v)` has an `Add`
as its most recent call, and returns the strictly ascending list of exactly
those values `v`; when not found it returns no values. -/
theorem get_exact (ops : List (Op K V)) (k : K) :
    ∃ m vals found, run (NewCompactChain : CompactChain K V) ops = some m ∧
      Get m k = some (vals, found) ∧
      (found = true ↔ ∃ v, Live ops (k, v)) ∧
      vals.Pairwise (· < ·) ∧ (∀ v, v ∈ vals ↔ Live ops (k, v)) ∧
      (found = false → vals = []) := by
  obtain ⟨m, h1, h2, h3⟩ := run_live ops
  obtain ⟨vals, found, g1, g2, g3, g4, _⟩ := Get_spec m h2 k
  refine ⟨m, vals, found, h1, g1, ?_, g2, fun v => by rw [g3, h3], ?_⟩
  · rw [g4]
    constructor
    · intro hne
      obtain ⟨v, hv⟩ := List.exists_mem_of_ne_nil vals hne
      exact ⟨v, (h3 _).mp ((g3 v).mp hv)⟩
    · rintro ⟨v, hv⟩
      exact List.ne_nil_of_mem ((g3 v).mpr ((h3 _).mpr hv))
  · intro hf
    by_contra hne
    have := g4.mpr hne
    rw [hf] at this
    exact Bool.false_ne_true this

/-! ## The traversal `Iterate` -/

/-- Logging does not change what the visitor answers nor its own state, on
one chain. -/
theorem iterateChain_logged {σ : Type} (fn : σ → K → V → Bool × σ) (key : K) :
    ∀ (c : List V) (s : σ) (log : List (K × V)),
      (iterateChain (logged fn) key c (s, log)).1 = (iterateChain fn key c s).1 ∧
      (iterateChain (logged fn) key c (s, log)).2.1 = (iterateChain fn key c s).2 := by
  intro c
  induction c with
  | nil => intro s log; simp [iterateChain]
  | cons x c ih =>
    intro s log
    by_cases hc : (fn s key x).1 = true
    · simp only [iterateChain, logged, hc, Bool.not_true, Bool.false_eq_true, if_false]
      exact ih _ _
    · simp only [iterateChain, logged]
      simp [hc]

/-- Logging does not change the final state of the visitor. -/
theorem iterateEntries_logged {σ : Type} (fn : σ → K → V → Bool × σ) :
    ∀ (l : List (Entry K V)) (s : σ) (log : List (K × V)),
      (iterateEntries (logged fn) l (s, log)).1 = iterateEntries fn l s := by
  intro l
  induction l with
  | nil => intro s log; simp [iterateEntries]
  | cons e l ih =>
    intro s log
    obtain ⟨h1, h2⟩ := iterateChain_logged fn e.Key e.Chain s log
    by_cases hc : (iterateChain fn e.Key e.Chain s).1 = true
    · simp only [iterateEntries, h1, hc, Bool.not_true, Bool.false_eq_true, if_false]
      have := ih (iterateChain (logged fn) e.Key e.Chain (s, log)).2.1
        (iterateChain (logged fn) e.Key e.Chain (s, log)).2.2
      rw [Prod.mk.eta, h2] at this
      exact this
    · simp only [iterateEntries, h1]
      simp [hc, h2]

/-- A visitor that never stops is called on every value of a chain, in
storage order, and the loop reports that it may go on. -/
theorem iterateChain_all {σ : Type} (fn : σ → K → V → Bool × σ)
    (hfn : ∀ s key value, (fn s key value).1 = true) (key : K) :
    ∀ (c : List V) (s : σ) (log : List (K × V)),
      (iterateChain (logged fn) key c (s, log)).1 = true ∧
      (iterateChain (logged fn) key c (s, log)).2.2 = log ++ c.map (fun v => (key, v)) := by
  intro c
  induction c with
  | nil => intro s log; simp [iterateChain]
  | cons x c ih =>
    intro s log
    simp only [iterateChain, logged, hfn, Bool.not_true, Bool.false_eq_true, if_false]
    obtain ⟨h1, h2⟩ := ih (fn s key x).2 (log ++ [(key, x)])
    exact ⟨h1, by rw [h2]; simp⟩

/-- A visitor that never stops is called on every stored pair, in storage
order. -/
theorem iterateEntries_all {σ : Type} (fn : σ → K → V → Bool × σ)
    (hfn : ∀ s key value, (fn s key value).1 = true) :
    ∀ (l : List (Entry K V)) (s : σ) (log : List (K × V)),
      (iterateEntries (logged fn) l (s, log)).2 = log ++ pairsOf l := by
  intro l
  induction l with
  | nil => intro s log; simp [iterateEntries, pairsOf]
  | cons e l ih =>
    intro s log
    obtain ⟨h1, h2⟩ := iterateChain_all fn hfn e.Key e.Chain s log
    simp only [iterateEntries, h1, Bool.not_true, Bool.false_eq_true, if_false]
    have := ih (iterateChain (logged fn) e.Key e.Chain (s, log)).2.1
      (iterateChain (logged fn) e.Key e.Chain (s, log)).2.2
    rw [Prod.mk.eta] at this
    rw [this, h2, pairsOf_cons]
    simp

/-- C10, `Iterate` visits everything in order.  On a reachable structure, the
calls `Iterate` makes to a visitor that always returns true are: one call for
each stored pair and none for any other pair, in strictly ascending
lexicographic order (key, then value), `Count()` calls in all; and the log
kept here does not change the visitor's own final state. -/
theorem iterate_visits_all (m : CompactChain K V) (h : Reachable m) (σ : Type)
    (fn : σ → K → V → Bool × σ) (hfn : ∀ s key value, (fn s key value).1 = true) (s : σ) :
    (Iterate m (logged fn) (s, [])).2.Nodup ∧
    (∀ k v, (k, v) ∈ (Iterate m (logged fn) (s, [])).2 ↔ Exist m k v = some true) ∧
    (Iterate m (logged fn) (s, [])).2.Pairwise LexLt ∧
    (Iterate m (logged fn) (s, [])).2.length = Count m ∧
    (Iterate m (logged fn) (s, [])).2 = toPairs m ∧
    (Iterate m (logged fn) (s, [])).1 = Iterate m fn s := by
  have hcalls : (Iterate m (logged fn) (s, [])).2 = toPairs m := by
    simp [Iterate, iterateEntries_all fn hfn, toPairs]
  rw [hcalls]
  refine ⟨toPairs_nodup m (reachable_inv h), ?_, toPairs_lex m (reachable_inv h),
    (Count_eq_length m).symm, rfl, iterateEntries_logged fn m.buffers s []⟩
  intro k v
  rw [Exist_spec m (reachable_inv h) k v]
  simp

theorem iterate_visits_all_witness :
    (Iterate (⟨[⟨1, [100, 200]⟩, ⟨2, [300]⟩]⟩ : CompactChain Nat Nat)
        (logged (fun (n : Nat) _ _ => (true, n + 1))) (0, [])).2
      = [(1, 100), (1, 200), (2, 300)] ∧
    (Iterate (⟨[⟨1, [100, 200]⟩, ⟨2, [300]⟩]⟩ : CompactChain Nat Nat)
        (logged (fun (n : Nat) _ _ => (true, n + 1))) (0, [])).2.length
      = Count (⟨[⟨1, [100, 200]⟩, ⟨2, [300]⟩]⟩ : CompactChain Nat Nat) :=
  ⟨by decide,
   (iterate_visits_all _ ⟨[Op.add 1 100, Op.add 1 200, Op.add 2 300], by decide⟩ Nat
     (fun n _ _ => (true, n + 1)) (fun _ _ _ => rfl) 0).2.2.2.1⟩

/-! ## Traversals with early exit -/

theorem visitedPrefix_initial {α σ : Type} (fn : σ → α → Bool × σ) :
    ∀ (l : List α) (s : σ), visitedPrefix fn l s <+: l := by
  intro l
  induction l with
  | nil => intro s; simp [visitedPrefix]
  | cons a l ih =>
    intro s
    by_cases hc : (fn s a).1 = true
    · simp only [visitedPrefix, hc, if_true]
      exact (List.prefix_cons_inj a).mpr (ih _)
    · simp only [visitedPrefix, hc]
      simp [List.prefix_iff_eq_take]

theorem visitedPrefix_all {α σ : Type} (fn : σ → α → Bool × σ)
    (hfn : ∀ s a, (fn s a).1 = true) :
    ∀ (l : List α) (s : σ), visitedPrefix fn l s = l := by
  intro l
  induction l with
  | nil => intro s; simp [visitedPrefix]
  | cons a l ih => intro s; simp [visitedPrefix, hfn, ih]

/-- For a visitor whose answer depends on the item only, the calls are the
items that pass followed by the first one that does not. -/
theorem visitedPrefix_pure {α σ : Type} (fn : σ → α → Bool × σ) (p : α → Bool)
    (hfn : ∀ s a, (fn s a).1 = p a) :
    ∀ (l : List α) (s : σ),
      visitedPrefix fn l s = l.takeWhile p ++ (l.dropWhile p).take 1 := by
  intro l
  induction l with
  | nil => intro s; simp [visitedPrefix]
  | cons a l ih =>
    intro s
    by_cases hc : p a = true
    · simp [visitedPrefix, hfn, hc, ih, List.takeWhile_cons, List.dropWhile_cons]
    · simp [visitedPrefix, hfn, hc, List.takeWhile_cons, List.dropWhile_cons]

/-- The calls of the inner loop of `Iterate` on one chain. -/
theorem iterateChain_calls {σ : Type} (fn : σ → K → V → Bool × σ) (key : K) :
    ∀ (c : List V) (s : σ) (log : List (K × V)),
      (iterateChain (logged fn) key c (s, log)).2.2
        = log ++ visitedPrefix (fun s1 q => fn s1 q.1 q.2) (c.map (fun v => (key, v))) s := by
  intro c
  induction c with
  | nil => intro s log; simp [iterateChain, visitedPrefix]
  | cons x c ih =>
    intro s log
    by_cases hc : (fn s key x).1 = true
    · simp only [iterateChain, logged, hc, Bool.not_true, Bool.false_eq_true, if_false,
        List.map_cons, visitedPrefix, if_true]
      rw [ih]; simp
    · simp only [iterateChain, logged, List.map_cons, visitedPrefix]
      simp [hc]

/-- The calls over a chain followed by further pairs: the further pairs are
reached exactly when the loop over the chain ran to its end. -/
theorem visitedPrefix_chain_append {σ : Type} (fn : σ → K → V → Bool × σ) (key : K)
    (rest : List (K × V)) :
    ∀ (c : List V) (s : σ),
      visitedPrefix (fun s1 q => fn s1 q.1 q.2) (c.map (fun v => (key, v)) ++ rest) s
        = if (iterateChain fn key c s).1 then
            c.map (fun v => (key, v))
              ++ visitedPrefix (fun s1 q => fn s1 q.1 q.2) rest (iterateChain fn key c s).2
          else visitedPrefix (fun s1 q => fn s1 q.1 q.2) (c.map (fun v => (key, v))) s := by
  intro c
  induction c with
  | nil => intro s; simp [iterateChain]
  | cons x c ih =>
    intro s
    by_cases hc : (fn s key x).1 = true
    · simp only [List.map_cons, List.cons_append, visitedPrefix, hc, if_true, iterateChain,
        Bool.not_true, Bool.false_eq_true, if_false]
      simp only [List.append_eq]
      rw [ih]
      split <;> rfl
    · simp only [List.map_cons, List.cons_append, visitedPrefix, iterateChain]
      simp [hc]

/-- The calls of `Iterate`: the stored pairs in storage order, up to and
including the first one on which the visitor returns false. -/
theorem iterateEntries_calls {σ : Type} (fn : σ → K → V → Bool × σ) :
    ∀ (l : List (Entry K V)) (s : σ) (log : List (K × V)),
      (iterateEntries (logged fn) l (s, log)).2
        = log ++ visitedPrefix (fun s1 q => fn s1 q.1 q.2) (pairsOf l) s := by
  intro l
  induction l with
  | nil => intro s log; simp [iterateEntries, pairsOf, visitedPrefix]
  | cons e l ih =>
    intro s log
    obtain ⟨h1, h2⟩ := iterateChain_logged fn e.Key e.Chain s log
    have h3 := iterateChain_calls fn e.Key e.Chain s log
    rw [pairsOf_cons, visitedPrefix_chain_append]
    by_cases hc : (iterateChain fn e.Key e.Chain s).1 = true
    · simp only [iterateEntries, h1, hc, Bool.not_true, Bool.false_eq_true, if_false, if_true]
      have := ih (iterateChain (logged fn) e.Key e.Chain (s, log)).2.1
        (iterateChain (logged fn) e.Key e.Chain (s, log)).2.2
      rw [Prod.mk.eta] at this
      rw [this, h2, h3]
      have h4 := visitedPrefix_chain_append fn e.Key [] e.Chain s
      simp only [List.append_nil, hc, if_true, visitedPrefix] at h4
      rw [h4]; simp
    · simp only [iterateEntries, h1]
      simp [hc, h3]

/-- The calls of `IterateKeys`: the entries in storage order, up to and
including the first one on which the visitor returns false. -/
theorem iterateKeysLoop_calls {σ : Type} (fn : σ → K → List V → Bool × σ) :
    ∀ (l : List (Entry K V)) (s : σ) (log : List (K × List V)),
      (iterateKeysLoop (loggedKeys fn) l (s, log)).2
        = log ++ visitedPrefix (fun s1 c => fn s1 c.1 c.2)
            (l.map (fun e => (e.Key, e.Chain))) s := by
  intro l
  induction l with
  | nil => intro s log; simp [iterateKeysLoop, visitedPrefix]
  | cons e l ih =>
    intro s log
    by_cases hc : (fn s e.Key e.Chain).1 = true
    · simp only [iterateKeysLoop, loggedKeys, hc, Bool.not_true, Bool.false_eq_true, if_false,
        List.map_cons, visitedPrefix, if_true]
      rw [ih]; simp
    · simp only [iterateKeysLoop, loggedKeys, List.map_cons, visitedPrefix]
      simp [hc]

/-- An entry of a structure satisfying the invariants is what `Get` returns
for its key. -/
theorem Get_of_mem (m : CompactChain K V) (h : Inv m) (key : K) (vals : List V)
    (he : (⟨key, vals⟩ : Entry K V) ∈ m.buffers) : Get m key = some (vals, true) := by
  obtain ⟨l⟩ := m
  obtain ⟨pre, post, hpre, hpost, h3⟩ := sorted_view Entry.Key key l h.1
  simp only at he
  rcases h3 with e | ⟨e, hk, hl⟩
  · subst e
    rcases List.mem_append.mp he with h1 | h1
    · exact absurd (hpre _ h1) (lt_irrefl _)
    · exact absurd (hpost _ h1) (lt_irrefl _)
  · subst hl
    obtain ⟨k, c⟩ := e
    simp only at hk
    subst hk
    rcases List.mem_append.mp he with h1 | h1
    · exact absurd (hpre _ h1) (lt_irrefl _)
    · rcases List.mem_cons.mp h1 with h2 | h2
      · simp only [Entry.mk.injEq, true_and] at h2
        subst h2
        exact Get_present_key pre post k vals hpre hpost
      · exact absurd (hpost _ h2) (lt_irrefl _)


/-- C11, `Iterate` stops early.  On a reachable structure and for every
visitor, the pairs on which `Iterate` calls the visitor are the stored pairs
in ascending lexicographic order, up to and including the first one on which
the visitor returns false: a prefix of the full traversal, with no call on a
later pair of the chain or of a later entry; all of it when the visitor never
returns false.  For a visitor whose answer depends on the pair only, they are
the pairs before the first failing one followed by that one. -/
theorem iterate_stops_early (m : CompactChain K V) (h : Reachable m) (σ : Type)
    (fn : σ → K → V → Bool × σ) (s : σ) :
    (Iterate m (logged fn) (s, [])).2
      = visitedPrefix (fun s1 q => fn s1 q.1 q.2) (toPairs m) s ∧
    (Iterate m (logged fn) (s, [])).2 <+: toPairs m ∧
    (toPairs m).Pairwise LexLt ∧
    (∀ k v, (k, v) ∈ toPairs m ↔ Exist m k v = some true) ∧
    ((∀ s1 k v, (fn s1 k v).1 = true) → (Iterate m (logged fn) (s, [])).2 = toPairs m) ∧
    (∀ p : K → V → Bool, (∀ s1 k v, (fn s1 k v).1 = p k v) →
      (Iterate m (logged fn) (s, [])).2
        = (toPairs m).takeWhile (fun q => p q.1 q.2)
          ++ ((toPairs m).dropWhile (fun q => p q.1 q.2)).take 1) := by
  have hcalls : (Iterate m (logged fn) (s, [])).2
      = visitedPrefix (fun s1 q => fn s1 q.1 q.2) (toPairs m) s := by
    simp [Iterate, iterateEntries_calls, toPairs]
  rw [hcalls]
  refine ⟨rfl, visitedPrefix_initial _ _ _, toPairs_lex m (reachable_inv h), ?_, ?_, ?_⟩
  · intro k v
    rw [Exist_spec m (reachable_inv h) k v]
    simp
  · intro hfn
    exact visitedPrefix_all _ (fun s1 (q : K × V) => hfn s1 q.1 q.2) _ _
  · intro p hfn
    exact visitedPrefix_pure _ (fun (q : K × V) => p q.1 q.2)
      (fun s1 (q : K × V) => hfn s1 q.1 q.2) _ _

theorem iterate_stops_early_witness :
    (Iterate (⟨[⟨1, [100, 200, 300]⟩, ⟨2, [50]⟩]⟩ : CompactChain Nat Nat)
        (logged (fun (n : Nat) _ v => (decide (v < 200), n + 1))) (0, [])).2
      = [(1, 100), (1, 200)] ∧
    (Iterate (⟨[⟨1, [100, 200, 300]⟩, ⟨2, [50]⟩]⟩ : CompactChain Nat Nat)
        (logged (fun (n : Nat) _ v => (decide (v < 200), n + 1))) (0, [])).2
      <+: toPairs (⟨[⟨1, [100, 200, 300]⟩, ⟨2, [50]⟩]⟩ : CompactChain Nat Nat) :=
  ⟨by decide,
   (iterate_stops_early _
     ⟨[Op.add 2 50, Op.add 1 300, Op.add 1 100, Op.add 1 200], by decide⟩ Nat
     (fun n _ v => (decide (v < 200), n + 1)) 0).2.1⟩

/-- C12, `IterateKeys` visits the entries in key order with full chains.  On
a reachable structure and for every visitor, the calls of `IterateKeys` are
the entries in storage order, up to and including the first one on which the
visitor returns false.  The entries are the pairs `(k, Get(k))` of the stored
keys, one per key, in strictly ascending key order; a visitor that never
returns false is called on all of them. -/
theorem iterate_keys_in_order (m : CompactChain K V) (h : Reachable m) (σ : Type)
    (fn : σ → K → List V → Bool × σ) (s : σ) :
    (IterateKeys m (loggedKeys fn) (s, [])).2
      = visitedPrefix (fun s1 c => fn s1 c.1 c.2)
          (m.buffers.map (fun e => (e.Key, e.Chain))) s ∧
    (IterateKeys m (loggedKeys fn) (s, [])).2 <+: m.buffers.map (fun e => (e.Key, e.Chain)) ∧
    ((m.buffers.map (fun e => (e.Key, e.Chain))).map Prod.fst).Pairwise (· < ·) ∧
    (∀ k vals, (k, vals) ∈ m.buffers.map (fun e => (e.Key, e.Chain))
      ↔ Get m k = some (vals, true)) ∧
    ((∀ s1 k vals, (fn s1 k vals).1 = true) →
      (IterateKeys m (loggedKeys fn) (s, [])).2
        = m.buffers.map (fun e => (e.Key, e.Chain))) := by
  have hinv := reachable_inv h
  have hcalls : (IterateKeys m (loggedKeys fn) (s, [])).2
      = visitedPrefix (fun s1 c => fn s1 c.1 c.2)
          (m.buffers.map (fun e => (e.Key, e.Chain))) s := by
    simp [IterateKeys, iterateKeysLoop_calls]
  rw [hcalls]
  refine ⟨rfl, visitedPrefix_initial _ _ _, ?_, ?_, ?_⟩
  · have hk : (m.buffers.map (fun e => (e.Key, e.Chain))).map Prod.fst
        = m.buffers.map Entry.Key := by simp
    rw [hk]; exact hinv.1
  · intro k vals
    constructor
    · intro hmem
      obtain ⟨e, he, heq⟩ := List.mem_map.mp hmem
      simp only [Prod.mk.injEq] at heq
      obtain ⟨k1, c1⟩ := e
      simp only at heq
      obtain ⟨rfl, rfl⟩ := heq
      exact Get_of_mem m hinv _ _ he
    · intro hg
      obtain ⟨vals1, found1, g1, _, _, _, g5⟩ := Get_spec m hinv k
      rw [hg] at g1
      simp only [Option.some.injEq, Prod.mk.injEq] at g1
      obtain ⟨e1, e2⟩ := g1
      subst e1 e2
      exact List.mem_map.mpr ⟨⟨k, vals⟩, g5 rfl, rfl⟩
  · intro hfn
    exact visitedPrefix_all _ (fun s1 (c : K × List V) => hfn s1 c.1 c.2) _ _

theorem iterate_keys_in_order_witness :
    (IterateKeys (⟨[⟨1, [100, 200]⟩, ⟨2, [50]⟩, ⟨3, [7]⟩]⟩ : CompactChain Nat Nat)
        (loggedKeys (fun (n : Nat) k _ => (decide (k < 2), n + 1))) (0, [])).2
      = [(1, [100, 200]), (2, [50])] ∧
    (IterateKeys (⟨[⟨1, [100, 200]⟩, ⟨2, [50]⟩, ⟨3, [7]⟩]⟩ : CompactChain Nat Nat)
        (loggedKeys (fun (n : Nat) k _ => (decide (k < 2), n + 1))) (0, [])).2
      <+: [(1, [100, 200]), (2, [50]), (3, [7])] :=
  ⟨by decide,
   (iterate_keys_in_order _
     ⟨[Op.add 3 7, Op.add 2 50, Op.add 1 200, Op.add 1 100], by decide⟩ Nat
     (fun n k _ => (decide (k < 2), n + 1)) 0).2.1⟩


/-! ## Totality, agreement of `Exist` and `Get`, and the stored set -/

/-- C13, totality.  On a reachable structure, for every key and value, `Add`,
`Get`, `Delete` and `Exist` return a result: no index, slice bound or shift
fails.  The key search returns an index in `[0, len]`, and so does the value
search on every chain.  (`Count`, `Iterate` and `IterateKeys` are total
functions on the entries.) -/
theorem totality (m : CompactChain K V) (h : Reachable m) (k : K) (v : V) :
    (∃ m1, Add m k v = some m1) ∧ (∃ r, Get m k = some r) ∧
    (∃ m1, Delete m k v = some m1) ∧ (∃ b, Exist m k v = some b) ∧
    (∃ i, Search m.buffers.length
        (fun i => (index m.buffers i).map (fun e => decide (e.Key ≥ k))) = some i ∧
      i ≤ m.buffers.length) ∧
    (∀ e ∈ m.buffers, ∃ i, Search e.Chain.length
        (fun i => (index e.Chain i).map (fun x => decide (x ≥ v))) = some i ∧
      i ≤ e.Chain.length) := by
  have hinv := reachable_inv h
  obtain ⟨m1, h1, _, _⟩ := Add_spec m hinv k v
  obtain ⟨vals, found, g1, _⟩ := Get_spec m hinv k
  obtain ⟨m2, d1, _, _⟩ := Delete_spec m hinv k v
  exact ⟨⟨m1, h1⟩, ⟨_, g1⟩, ⟨m2, d1⟩, ⟨_, Exist_spec m hinv k v⟩,
    Search_total m.buffers (fun e => decide (e.Key ≥ k)),
    fun e _ => Search_total e.Chain (fun x => decide (x ≥ v))⟩

theorem totality_witness :
    ((∃ m1, Add (NewCompactChain : CompactChain Nat Nat) 5 10 = some m1) ∧
      (∃ r, Get (NewCompactChain : CompactChain Nat Nat) 5 = some r) ∧
      (∃ m1, Delete (NewCompactChain : CompactChain Nat Nat) 5 10 = some m1) ∧
      (∃ b, Exist (NewCompactChain : CompactChain Nat Nat) 5 10 = some b)) ∧
    Add (⟨[⟨5, [10, 20]⟩]⟩ : CompactChain Nat Nat) 1 7 = some ⟨[⟨1, [7]⟩, ⟨5, [10, 20]⟩]⟩ ∧
    Add (⟨[⟨5, [10, 20]⟩]⟩ : CompactChain Nat Nat) 9 7 = some ⟨[⟨5, [10, 20]⟩, ⟨9, [7]⟩]⟩ ∧
    Add (⟨[⟨5, [10, 20]⟩]⟩ : CompactChain Nat Nat) 5 1 = some ⟨[⟨5, [1, 10, 20]⟩]⟩ ∧
    Add (⟨[⟨5, [10, 20]⟩]⟩ : CompactChain Nat Nat) 5 30 = some ⟨[⟨5, [10, 20, 30]⟩]⟩ :=
  ⟨⟨(totality _ ⟨[], rfl⟩ 5 10).1, (totality _ ⟨[], rfl⟩ 5 10).2.1,
    (totality _ ⟨[], rfl⟩ 5 10).2.2.1, (totality _ ⟨[], rfl⟩ 5 10).2.2.2.1⟩,
   by decide, by decide, by decide, by decide⟩

/-- C16, `Exist` agrees with `Get`.  On a reachable structure `Exist(k, v)`
returns true exactly when `Get(k)` reports the key as found and `v` is an
element of the sequence it returns. -/
theorem exist_agrees_with_get (m : CompactChain K V) (h : Reachable m) (k : K) (v : V) :
    (∃ vals found, Get m k = some (vals, found) ∧
      Exist m k v = some (decide (found = true ∧ v ∈ vals))) ∧
    (Exist m k v = some true ↔ ∃ vals, Get m k = some (vals, true) ∧ v ∈ vals) := by
  have hinv := reachable_inv h
  obtain ⟨vals, found, g1, _, g3, g4, _⟩ := Get_spec m hinv k
  have he := Exist_spec m hinv k v
  have hiff : (k, v) ∈ toPairs m ↔ (found = true ∧ v ∈ vals) := by
    rw [← g3]
    constructor
    · intro hv
      exact ⟨g4.mpr (List.ne_nil_of_mem hv), hv⟩
    · exact fun hv => hv.2
  have he2 : Exist m k v = some (decide (found = true ∧ v ∈ vals)) := by
    rw [he]
    congr 1
    exact decide_eq_decide.mpr hiff
  refine ⟨⟨vals, found, g1, he2⟩, ?_⟩
  rw [he2, g1]
  constructor
  · intro hd
    simp only [Option.some.injEq, decide_eq_true_eq] at hd
    obtain ⟨hf, hv⟩ := hd
    subst hf
    exact ⟨vals, rfl, hv⟩
  · rintro ⟨vals1, hg, hv⟩
    simp only [Option.some.injEq, Prod.mk.injEq] at hg
    obtain ⟨e1, e2⟩ := hg
    subst e1 e2
    simp [hv]

theorem exist_agrees_with_get_witness :
    (∃ vals found, Get (⟨[⟨1, [100, 200]⟩]⟩ : CompactChain Nat Nat) 1 = some (vals, found) ∧
      Exist (⟨[⟨1, [100, 200]⟩]⟩ : CompactChain Nat Nat) 1 200
        = some (decide (found = true ∧ 200 ∈ vals))) ∧
    Exist (⟨[⟨1, [100, 200]⟩]⟩ : CompactChain Nat Nat) 1 200 = some true :=
  ⟨(exist_agrees_with_get _ ⟨[Op.add 1 100, Op.add 1 200], by decide⟩ 1 200).1, by decide⟩

/-- C18, set refinement.  Every finite sequence of `Add` and `Delete` calls
on a new structure runs to a structure on which `Exist(k, v)` is true exactly
when the most recent call that mentions `(k, v)` is an `Add`, and false
otherwise; and on it neither `Add(k, v)` nor `Delete(k, v)` changes what
`Exist` returns for any other pair. -/
theorem set_refinement (ops : List (Op K V)) (k : K) (v : V) :
    ∃ m, run (NewCompactChain : CompactChain K V) ops = some m ∧
      (Exist m k v = some true ↔ Live ops (k, v)) ∧
      (Exist m k v = some false ↔ ¬ Live ops (k, v)) ∧
      ∃ m1 m2, Add m k v = some m1 ∧ Delete m k v = some m2 ∧
        ∀ k1 v1, (k1, v1) ≠ (k, v) →
          Exist m1 k1 v1 = Exist m k1 v1 ∧ Exist m2 k1 v1 = Exist m k1 v1 := by
  obtain ⟨m, h1, h2, h3⟩ := run_live ops
  obtain ⟨m1, a1, a2, a3⟩ := Add_spec m h2 k v
  obtain ⟨m2, d1, d2, d3⟩ := Delete_spec m h2 k v
  refine ⟨m, h1, ?_, ?_, m1, m2, a1, d1, ?_⟩
  · rw [Exist_spec m h2 k v, ← h3]; simp
  · rw [Exist_spec m h2 k v, ← h3]; simp
  · intro k1 v1 hne
    rw [Exist_spec m1 a2, Exist_spec m2 d2, Exist_spec m h2]
    constructor
    · congr 1
      apply decide_eq_decide.mpr
      rw [a3]
      exact ⟨fun hq => hq.resolve_left hne, Or.inr⟩
    · congr 1
      apply decide_eq_decide.mpr
      rw [d3]
      exact ⟨fun hq => hq.2, fun hq => ⟨hne, hq⟩⟩

/-- C20, `Add` then `Delete` is a round trip.  On a reachable structure on
which `Exist(k, v)` is false, `Add(k, v)` followed by `Delete(k, v)` returns
exactly the original structure, whether the key was new or not. -/
theorem add_delete_round_trip (m : CompactChain K V) (h : Reachable m) (k : K) (v : V)
    (he : Exist m k v = some false) :
    ∃ m1, Add m k v = some m1 ∧ Delete m1 k v = some m := by
  have hinv := reachable_inv h
  have hv := view_of_inv m hinv k v
  cases hv with
  | absentKey pre post hpre hpost =>
    refine ⟨_, Add_absent_key pre post k v hpre hpost, ?_⟩
    have hd := Delete_present pre post k v [] [] hpre hpost (by simp) (by simp)
    simpa using hd
  | absentValue pre post vpre vpost hpre hpost hvpre hvpost =>
    refine ⟨_, Add_absent_value pre post k v vpre vpost hpre hpost hvpre hvpost, ?_⟩
    have hd := Delete_present pre post k v vpre vpost hpre hpost hvpre hvpost
    have hne : vpre ++ vpost ≠ [] := hinv.2.2 ⟨k, vpre ++ vpost⟩ (by simp)
    rw [if_neg hne] at hd
    exact hd
  | present pre post vpre vpost hpre hpost hvpre hvpost =>
    rw [Exist_present pre post k v vpre vpost hpre hpost hvpre hvpost] at he
    simp at he

theorem add_delete_round_trip_witness :
    Exist (⟨[⟨1, [100]⟩, ⟨3, [7]⟩]⟩ : CompactChain Nat Nat) 2 5 = some false ∧
    ∃ m1, Add (⟨[⟨1, [100]⟩, ⟨3, [7]⟩]⟩ : CompactChain Nat Nat) 2 5 = some m1 ∧
      Delete m1 2 5 = some ⟨[⟨1, [100]⟩, ⟨3, [7]⟩]⟩ :=
  ⟨by decide,
   add_delete_round_trip _ ⟨[Op.add 3 7, Op.add 1 100], by decide⟩ 2 5 (by decide)⟩


/-! ## The tie-break of the binary search -/

/-- C17, binary-search tie-break.  On a sequence strictly ascending by its
sort key (the key of an entry, or the value itself) and for every target,
the search used by `Add`, `Get`, `Delete` and `Exist` returns the smallest
index `i` in `[0, len]` with every element before `i` below the target and
every element from `i` on at or above it: `len` when all elements are below,
`0` on the empty sequence.  The target occurs exactly when the element at `i`
exists and equals it; otherwise an element with the target as sort key put at
index `i` keeps the sequence strictly ascending. -/
theorem search_tie_break {β α : Type} [LinearOrder α] (g : β → α) (l : List β)
    (hl : (l.map g).Pairwise (· < ·)) (t : α) :
    ∃ i, Search l.length (fun j => (index l j).map (fun x => decide (g x ≥ t))) = some i ∧
      i ≤ l.length ∧
      (∀ x ∈ l.take i, g x < t) ∧ (∀ x ∈ l.drop i, t ≤ g x) ∧
      (∀ i1, i1 ≤ l.length → (∀ x ∈ l.take i1, g x < t) → (∀ x ∈ l.drop i1, t ≤ g x) →
        i ≤ i1) ∧
      ((∃ x ∈ l, g x = t) ↔ ∃ e, index l i = some e ∧ g e = t) ∧
      ((¬ ∃ x ∈ l, g x = t) → ∀ y, g y = t →
        ((l.take i ++ y :: l.drop i).map g).Pairwise (· < ·)) ∧
      ((∀ x ∈ l, g x < t) → i = l.length) ∧
      (l = [] → i = 0) := by
  obtain ⟨pre, post0, hpre, hpost0, hcase⟩ := sorted_view g t l hl
  -- one split for both cases: the part at or above the target
  obtain ⟨post, hlp, hpost, hocc⟩ : ∃ post, l = pre ++ post ∧ (∀ x ∈ post, t ≤ g x) ∧
      ((∃ x ∈ l, g x = t) ↔ ∃ e, post.head? = some e ∧ g e = t) := by
    rcases hcase with e | ⟨e, he, hle⟩
    · refine ⟨post0, e, fun x hx => le_of_lt (hpost0 x hx), ?_⟩
      constructor
      · rintro ⟨x, hx, hgx⟩
        rw [e] at hx
        rcases List.mem_append.mp hx with h1 | h1
        · exact absurd hgx (ne_of_lt (hpre x h1))
        · exact absurd hgx (ne_of_gt (hpost0 x h1))
      · rintro ⟨x, hx, hgx⟩
        have hmem : x ∈ post0 := List.mem_of_mem_head? hx
        exact absurd hgx (ne_of_gt (hpost0 x hmem))
    · refine ⟨e :: post0, hle, ?_, ?_⟩
      · intro x hx
        rcases List.mem_cons.mp hx with h1 | h1
        · rw [h1, he]
        · exact le_of_lt (hpost0 x h1)
      · constructor
        · intro _
          exact ⟨e, rfl, he⟩
        · intro _
          exact ⟨e, by rw [hle]; simp, he⟩
  subst hlp
  have htake : (pre ++ post).take pre.length = pre := List.take_left pre post
  have hdrop : (pre ++ post).drop pre.length = post := List.drop_left pre post
  refine ⟨pre.length, ?_, by simp, ?_, ?_, ?_, ?_, ?_, ?_, ?_⟩
  · exact Search_split (fun x => decide (g x ≥ t)) pre post
      (by intro x hx; simpa using hpre x hx) (by intro x hx; simpa using hpost x hx)
  · rw [htake]; exact hpre
  · rw [hdrop]; exact hpost
  · intro i1 hi1 h1 h2
    by_contra hlt
    have hlt1 : i1 < pre.length := by omega
    have hlen : i1 < (pre ++ post).length := by simp; omega
    have hmem : (pre ++ post)[i1] ∈ (pre ++ post).drop i1 := by
      rw [List.mem_drop_iff_getElem]
      exact ⟨0, by simpa using hlen, by simp⟩
    have hge := h2 _ hmem
    have heq : (pre ++ post)[i1] = pre[i1] := List.getElem_append_left hlt1
    rw [heq] at hge
    exact absurd (hpre _ (List.getElem_mem hlt1)) (not_lt.mpr hge)
  · rw [hocc, index_split]
  · intro hno y hy
    rw [htake, hdrop, List.map_append, List.map_cons]
    rw [List.map_append] at hl
    apply pairwise_insert _ _ _ _ hl
    · intro x hx
      obtain ⟨e, he, rfl⟩ := List.mem_map.mp hx
      rw [hy]; exact hpre e he
    · intro x hx
      obtain ⟨e, he, rfl⟩ := List.mem_map.mp hx
      rw [hy]
      apply lt_of_le_of_ne (hpost e he)
      intro heq
      exact hno ⟨e, List.mem_append_right _ he, heq.symm⟩
  · intro hall
    cases post with
    | nil => simp
    | cons e post =>
      have h1 := hpost e (List.mem_cons_self _ _)
      have h2 := hall e (by simp)
      exact absurd h2 (not_lt.mpr h1)
  · intro hnil
    have : pre = [] := (List.append_eq_nil.mp hnil).1
    rw [this]; rfl

theorem search_tie_break_witness :
    ∃ i, Search [10, 20, 30].length
        (fun j => (index [10, 20, 30] j).map (fun x => decide (id x ≥ 20))) = some i ∧
      i ≤ [10, 20, 30].length ∧
      (∀ x ∈ [10, 20, 30].take i, id x < 20) ∧ (∀ x ∈ [10, 20, 30].drop i, 20 ≤ id x) ∧
      (∀ i1, i1 ≤ [10, 20, 30].length → (∀ x ∈ [10, 20, 30].take i1, id x < 20) →
        (∀ x ∈ [10, 20, 30].drop i1, 20 ≤ id x) → i ≤ i1) ∧
      ((∃ x ∈ [10, 20, 30], id x = 20) ↔ ∃ e, index [10, 20, 30] i = some e ∧ id e = 20) ∧
      ((¬ ∃ x ∈ [10, 20, 30], id x = 20) → ∀ y, id y = 20 →
        (([10, 20, 30].take i ++ y :: [10, 20, 30].drop i).map id).Pairwise (· < ·)) ∧
      ((∀ x ∈ [10, 20, 30], id x < 20) → i = [10, 20, 30].length) ∧
      (([10, 20, 30] : List Nat) = [] → i = 0) :=
  search_tie_break id [10, 20, 30] (by decide) 20


/-! ## Canonical form -/

theorem mem_pairsOf_cons (e : Entry K V) (l : List (Entry K V)) (q : K × V) :
    q ∈ pairsOf (e :: l) ↔ (q.1 = e.Key ∧ q.2 ∈ e.Chain) ∨ q ∈ pairsOf l := by
  have h := mem_pairsOf_split [] l e.Key e.Chain q
  simp only [List.nil_append] at h
  rw [h]
  simp [pairsOf]

theorem Inv_tail (e : Entry K V) (l : List (Entry K V)) (h : Inv ⟨e :: l⟩) : Inv ⟨l⟩ :=
  Inv_remove_entry [] l e h

theorem key_lt_of_mem_tail (e : Entry K V) (l : List (Entry K V)) (h : Inv ⟨e :: l⟩)
    (q : K × V) (hq : q ∈ pairsOf l) : e.Key < q.1 := by
  obtain ⟨e1, he1, hk, _⟩ := (mem_pairsOf l q).mp hq
  have h1 := h.1
  simp only [SortedKeys, List.map_cons, List.pairwise_cons] at h1
  rw [← hk]
  exact h1.1 _ (List.mem_map_of_mem _ he1)

/-- The head entries of two structures that satisfy the invariants and store
the same pairs have the same key. -/
theorem head_key_le (e1 e2 : Entry K V) (t1 t2 : List (Entry K V))
    (h1 : Inv ⟨e1 :: t1⟩) (h2 : Inv ⟨e2 :: t2⟩)
    (hq : ∀ q, q ∈ pairsOf (e1 :: t1) → q ∈ pairsOf (e2 :: t2)) : e2.Key ≤ e1.Key := by
  obtain ⟨v, hv⟩ := List.exists_mem_of_ne_nil _ (h1.2.2 e1 (List.mem_cons_self _ _))
  have hm : (e1.Key, v) ∈ pairsOf (e2 :: t2) :=
    hq _ ((mem_pairsOf_cons e1 t1 _).mpr (Or.inl ⟨rfl, hv⟩))
  rcases (mem_pairsOf_cons e2 t2 _).mp hm with ⟨hk, _⟩ | hm2
  · exact le_of_eq hk.symm
  · exact le_of_lt (key_lt_of_mem_tail e2 t2 h2 _ hm2)

/-- Two structures that satisfy the invariants and store the same pairs are
the same structure. -/
theorem entries_ext : ∀ l1 l2 : List (Entry K V), Inv ⟨l1⟩ → Inv ⟨l2⟩ →
    (∀ q, q ∈ pairsOf l1 ↔ q ∈ pairsOf l2) → l1 = l2 := by
  intro l1
  induction l1 with
  | nil =>
    intro l2 _ h2 hq
    cases l2 with
    | nil => rfl
    | cons e2 t2 =>
      obtain ⟨v, hv⟩ := List.exists_mem_of_ne_nil _ (h2.2.2 e2 (List.mem_cons_self _ _))
      have := (hq (e2.Key, v)).mpr ((mem_pairsOf_cons e2 t2 _).mpr (Or.inl ⟨rfl, hv⟩))
      simp [pairsOf] at this
  | cons e1 t1 ih =>
    intro l2 h1 h2 hq
    cases l2 with
    | nil =>
      obtain ⟨v, hv⟩ := List.exists_mem_of_ne_nil _ (h1.2.2 e1 (List.mem_cons_self _ _))
      have := (hq (e1.Key, v)).mp ((mem_pairsOf_cons e1 t1 _).mpr (Or.inl ⟨rfl, hv⟩))
      simp [pairsOf] at this
    | cons e2 t2 =>
      have hk : e1.Key = e2.Key :=
        le_antisymm (head_key_le e2 e1 t2 t1 h2 h1 (fun q hm => (hq q).mpr hm))
          (head_key_le e1 e2 t1 t2 h1 h2 (fun q hm => (hq q).mp hm))
      have hc : e1.Chain = e2.Chain := by
        apply sorted_ext _ _ (h1.2.1 e1 (List.mem_cons_self _ _))
          (h2.2.1 e2 (List.mem_cons_self _ _))
        intro v
        constructor
        · intro hv
          have hm := (hq (e1.Key, v)).mp ((mem_pairsOf_cons e1 t1 _).mpr (Or.inl ⟨rfl, hv⟩))
          rcases (mem_pairsOf_cons e2 t2 _).mp hm with ⟨_, hv2⟩ | hm2
          · exact hv2
          · have := key_lt_of_mem_tail e2 t2 h2 _ hm2
            simp only [hk] at this
            exact absurd this (lt_irrefl _)
        · intro hv
          have hm := (hq (e2.Key, v)).mpr ((mem_pairsOf_cons e2 t2 _).mpr (Or.inl ⟨rfl, hv⟩))
          rcases (mem_pairsOf_cons e1 t1 _).mp hm with ⟨_, hv2⟩ | hm2
          · exact hv2
          · have := key_lt_of_mem_tail e1 t1 h1 _ hm2
            simp only [hk] at this
            exact absurd this (lt_irrefl _)
      have ht : t1 = t2 := by
        apply ih t2 (Inv_tail e1 t1 h1) (Inv_tail e2 t2 h2)
        intro q
        constructor
        · intro hm
          have hlt := key_lt_of_mem_tail e1 t1 h1 q hm
          rcases (mem_pairsOf_cons e2 t2 q).mp
            ((hq q).mp ((mem_pairsOf_cons e1 t1 q).mpr (Or.inr hm))) with ⟨hk2, _⟩ | hm2
          · rw [hk2, hk] at hlt
            exact absurd hlt (lt_irrefl _)
          · exact hm2
        · intro hm
          have hlt := key_lt_of_mem_tail e2 t2 h2 q hm
          rcases (mem_pairsOf_cons e1 t1 q).mp
            ((hq q).mpr ((mem_pairsOf_cons e2 t2 q).mpr (Or.inr hm))) with ⟨hk2, _⟩ | hm2
          · rw [hk2, hk] at hlt
            exact absurd hlt (lt_irrefl _)
          · exact hm2
      obtain ⟨k1, c1⟩ := e1
      obtain ⟨k2, c2⟩ := e2
      simp only at hk hc
      rw [hk, hc, ht]

theorem Inv_ext (m1 m2 : CompactChain K V) (h1 : Inv m1) (h2 : Inv m2)
    (hq : ∀ q, q ∈ toPairs m1 ↔ q ∈ toPairs m2) : m1 = m2 := by
  obtain ⟨l1⟩ := m1
  obtain ⟨l2⟩ := m2
  rw [entries_ext l1 l2 h1 h2 hq]

/-- C19, canonical form.  Two finite sequences of `Add` and `Delete` calls on
a new structure that leave the same set of present pairs run to the same
structure, entry for entry and chain for chain; in particular two `Add`
calls after any sequence give the same structure in either order. -/
theorem canonical_form (ops1 ops2 : List (Op K V))
    (hsame : ∀ q, Live ops1 q ↔ Live ops2 q) :
    (∃ m, run (NewCompactChain : CompactChain K V) ops1 = some m ∧
      run (NewCompactChain : CompactChain K V) ops2 = some m) ∧
    (∀ k1 v1 k2 v2, ∃ m,
      run (NewCompactChain : CompactChain K V) (ops1 ++ [Op.add k1 v1, Op.add k2 v2])
        = some m ∧
      run (NewCompactChain : CompactChain K V) (ops1 ++ [Op.add k2 v2, Op.add k1 v1])
        = some m) := by
  have key : ∀ a b : List (Op K V), (∀ q, Live a q ↔ Live b q) →
      ∃ m, run (NewCompactChain : CompactChain K V) a = some m ∧
        run (NewCompactChain : CompactChain K V) b = some m := by
    intro a b hab
    obtain ⟨m1, h1, i1, l1⟩ := run_live a
    obtain ⟨m2, h2, i2, l2⟩ := run_live b
    have : m1 = m2 := Inv_ext m1 m2 i1 i2 (fun q => by rw [l1, l2, hab])
    subst this
    exact ⟨m1, h1, h2⟩
  refine ⟨key ops1 ops2 hsame, ?_⟩
  intro k1 v1 k2 v2
  apply key
  intro q
  have e1 : ops1 ++ [Op.add k1 v1, Op.add k2 v2]
      = (ops1 ++ [Op.add k1 v1]) ++ [Op.add k2 v2] := by simp
  have e2 : ops1 ++ [Op.add k2 v2, Op.add k1 v1]
      = (ops1 ++ [Op.add k2 v2]) ++ [Op.add k1 v1] := by simp
  rw [e1, e2, Live_snoc_add, Live_snoc_add, Live_snoc_add, Live_snoc_add]
  tauto


/-- Two call sequences over the naturals that leave the same pairs. -/
theorem live_example (q : Nat × Nat) :
    Live [Op.add 1 100, Op.add 2 5] q
      ↔ Live [Op.add 2 5, Op.add 2 7, Op.add 1 100, Op.delete 2 7] q := by
  have e1 : [Op.add 1 100, Op.add 2 5]
      = (([] : List (Op Nat Nat)) ++ [Op.add 1 100]) ++ [Op.add 2 5] := rfl
  have e2 : [Op.add 2 5, Op.add 2 7, Op.add 1 100, Op.delete 2 7]
      = (((([] : List (Op Nat Nat)) ++ [Op.add 2 5]) ++ [Op.add 2 7]) ++ [Op.add 1 100])
        ++ [Op.delete 2 7] := rfl
  rw [e1, e2]
  simp only [Live_snoc_add, Live_snoc_delete, Live_nil, or_false]
  constructor
  · rintro (h | h)
    · exact ⟨by rw [h]; decide, Or.inr (Or.inr h)⟩
    · exact ⟨by rw [h]; decide, Or.inl h⟩
  · rintro ⟨hne, h | h | h⟩
    · exact Or.inr h
    · exact absurd h hne
    · exact Or.inl h

theorem canonical_form_witness :
    (∃ m, run (NewCompactChain : CompactChain Nat Nat) [Op.add 1 100, Op.add 2 5] = some m ∧
      run (NewCompactChain : CompactChain Nat Nat)
        [Op.add 2 5, Op.add 2 7, Op.add 1 100, Op.delete 2 7] = some m) ∧
    run (NewCompactChain : CompactChain Nat Nat)
        [Op.add 2 5, Op.add 2 7, Op.add 1 100, Op.delete 2 7]
      = some ⟨[⟨1, [100]⟩, ⟨2, [5]⟩]⟩ :=
  ⟨(canonical_form [Op.add 1 100, Op.add 2 5]
      [Op.add 2 5, Op.add 2 7, Op.add 1 100, Op.delete 2 7] live_example).1,
   by decide⟩


/-! ## The operations at a given result of the searches

The same evaluations as above, for any structure, sorted or not: the results
of the two searches are hypotheses. -/

/-- The equality test after a search that stopped at the end or at an element
with another sort key fails. -/
theorem test_miss {β α : Type} [LinearOrder α] (g : β → α) (pre post : List β) (t : α)
    (hhead : ∀ e, post.head? = some e → g e ≠ t) :
    (if pre.length < (pre ++ post).length then
      (index (pre ++ post) pre.length).map (fun e => decide (g e = t))
     else some false) = some false := by
  cases post with
  | nil => simp
  | cons e post =>
    have : g e ≠ t := hhead e rfl
    simp [index_split, this]

theorem Add_at_absent_key (pre post : List (Entry K V)) (key : K) (value : V)
    (hs : Search (pre ++ post).length
      (fun i => (index (pre ++ post) i).map (fun e => decide (e.Key ≥ key)))
      = some pre.length)
    (hhead : ∀ e, post.head? = some e → e.Key ≠ key) :
    Add ⟨pre ++ post⟩ key value = some ⟨pre ++ ⟨key, [value]⟩ :: post⟩ := by
  have ht := test_miss Entry.Key pre post key hhead
  have hi := shift_insert (pre.map some) (post.map some) none (some (⟨key, [value]⟩ : Entry K V))
  simp only [List.length_map, Option.bind_eq_some] at hi
  obtain ⟨b, hb1, hb2⟩ := hi
  simp only [Add, hs, ht, Option.bind_eq_bind, Option.some_bind, List.map_append, hb1, hb2]
  have : pre.map some ++ some (⟨key, [value]⟩ : Entry K V) :: post.map some
      = (pre ++ ⟨key, [value]⟩ :: post).map some := by simp
  rw [this, allNonNil_map_some]
  simp

theorem Add_at_absent_value (pre post : List (Entry K V)) (key : K) (value : V)
    (vpre vpost : List V)
    (hs : Search (pre ++ ⟨key, vpre ++ vpost⟩ :: post).length
      (fun i => (index (pre ++ ⟨key, vpre ++ vpost⟩ :: post) i).map
        (fun e => decide (e.Key ≥ key))) = some pre.length)
    (hvs : Search (vpre ++ vpost).length
      (fun i => (index (vpre ++ vpost) i).map (fun x => decide (x ≥ value)))
      = some vpre.length)
    (hhead : ∀ x, vpost.head? = some x → x ≠ value) :
    Add ⟨pre ++ ⟨key, vpre ++ vpost⟩ :: post⟩ key value
      = some ⟨pre ++ ⟨key, vpre ++ value :: vpost⟩ :: post⟩ := by
  have ht := test_present Entry.Key pre post (⟨key, vpre ++ vpost⟩ : Entry K V) key rfl
  have hvt := test_miss id vpre vpost value hhead
  have hi := shift_insert vpre vpost value value
  simp only [Option.bind_eq_some] at hi
  obtain ⟨b, hb1, hb2⟩ := hi
  simp only [id] at hvt
  simp only [Add, hs, ht, Option.bind_eq_bind, Option.some_bind, if_true]
  rw [index_split pre]
  simp only [List.head?_cons, Option.some_bind, hvs, hvt, hb1, hb2, set_split]
  simp

theorem Add_at_present (pre post : List (Entry K V)) (key : K) (value : V)
    (vpre vpost : List V)
    (hs : Search (pre ++ ⟨key, vpre ++ value :: vpost⟩ :: post).length
      (fun i => (index (pre ++ ⟨key, vpre ++ value :: vpost⟩ :: post) i).map
        (fun e => decide (e.Key ≥ key))) = some pre.length)
    (hvs : Search (vpre ++ value :: vpost).length
      (fun i => (index (vpre ++ value :: vpost) i).map (fun x => decide (x ≥ value)))
      = some vpre.length) :
    Add ⟨pre ++ ⟨key, vpre ++ value :: vpost⟩ :: post⟩ key value
      = some ⟨pre ++ ⟨key, vpre ++ value :: vpost⟩ :: post⟩ := by
  have ht := test_present Entry.Key pre post (⟨key, vpre ++ value :: vpost⟩ : Entry K V) key rfl
  have hvt := test_present id vpre vpost value value rfl
  simp only [id] at hvt
  simp only [Add, hs, ht, Option.bind_eq_bind, Option.some_bind, if_true]
  rw [index_split pre]
  simp only [List.head?_cons, Option.some_bind, hvs, hvt, if_true]

theorem Get_at_absent_key (pre post : List (Entry K V)) (key : K)
    (hs : Search (pre ++ post).length
      (fun i => (index (pre ++ post) i).map (fun e => decide (e.Key ≥ key)))
      = some pre.length)
    (hhead : ∀ e, post.head? = some e → e.Key ≠ key) :
    Get ⟨pre ++ post⟩ key = some ([], false) := by
  have ht := test_miss Entry.Key pre post key hhead
  simp only [Get, hs, ht, Option.bind_eq_bind, Option.some_bind]
  simp

theorem Get_at_present_key (pre post : List (Entry K V)) (key : K) (c : List V)
    (hs : Search (pre ++ ⟨key, c⟩ :: post).length
      (fun i => (index (pre ++ ⟨key, c⟩ :: post) i).map (fun e => decide (e.Key ≥ key)))
      = some pre.length) :
    Get ⟨pre ++ ⟨key, c⟩ :: post⟩ key = some (c, true) := by
  have ht := test_present Entry.Key pre post (⟨key, c⟩ : Entry K V) key rfl
  simp only [Get, hs, ht, Option.bind_eq_bind, Option.some_bind, if_true]
  rw [index_split pre]
  simp

theorem Delete_at_absent_key (pre post : List (Entry K V)) (key : K) (value : V)
    (hs : Search (pre ++ post).length
      (fun i => (index (pre ++ post) i).map (fun e => decide (e.Key ≥ key)))
      = some pre.length)
    (hhead : ∀ e, post.head? = some e → e.Key ≠ key) :
    Delete ⟨pre ++ post⟩ key value = some ⟨pre ++ post⟩ := by
  have ht := test_miss Entry.Key pre post key hhead
  simp only [Delete, hs, ht, Option.bind_eq_bind, Option.some_bind]
  simp

theorem Delete_at_absent_value (pre post : List (Entry K V)) (key : K) (value : V)
    (vpre vpost : List V)
    (hs : Search (pre ++ ⟨key, vpre ++ vpost⟩ :: post).length
      (fun i => (index (pre ++ ⟨key, vpre ++ vpost⟩ :: post) i).map
        (fun e => decide (e.Key ≥ key))) = some pre.length)
    (hvs : Search (vpre ++ vpost).length
      (fun i => (index (vpre ++ vpost) i).map (fun x => decide (x ≥ value)))
      = some vpre.length)
    (hhead : ∀ x, vpost.head? = some x → x ≠ value) :
    Delete ⟨pre ++ ⟨key, vpre ++ vpost⟩ :: post⟩ key value
      = some ⟨pre ++ ⟨key, vpre ++ vpost⟩ :: post⟩ := by
  have ht := test_present Entry.Key pre post (⟨key, vpre ++ vpost⟩ : Entry K V) key rfl
  have hvt := test_miss id vpre vpost value hhead
  simp only [id] at hvt
  simp only [Delete, hs, ht, Option.bind_eq_bind, Option.some_bind, if_true]
  rw [index_split pre]
  simp only [List.head?_cons, Option.some_bind, hvs, hvt]
  simp

theorem Delete_at_present (pre post : List (Entry K V)) (key : K) (value : V)
    (vpre vpost : List V)
    (hs : Search (pre ++ ⟨key, vpre ++ value :: vpost⟩ :: post).length
      (fun i => (index (pre ++ ⟨key, vpre ++ value :: vpost⟩ :: post) i).map
        (fun e => decide (e.Key ≥ key))) = some pre.length)
    (hvs : Search (vpre ++ value :: vpost).length
      (fun i => (index (vpre ++ value :: vpost) i).map (fun x => decide (x ≥ value)))
      = some vpre.length) :
    Delete ⟨pre ++ ⟨key, vpre ++ value :: vpost⟩ :: post⟩ key value
      = some (if vpre ++ vpost = [] then ⟨pre ++ post⟩
              else ⟨pre ++ ⟨key, vpre ++ vpost⟩ :: post⟩) := by
  have ht := test_present Entry.Key pre post (⟨key, vpre ++ value :: vpost⟩ : Entry K V) key rfl
  have hvt := test_present id vpre vpost value value rfl
  simp only [id] at hvt
  simp only [Delete, hs, ht, Option.bind_eq_bind, Option.some_bind, if_true]
  rw [index_split pre]
  simp only [List.head?_cons, Option.some_bind, hvs, hvt, if_true, sliceTo_split,
    sliceFrom_split, set_split, List.length_eq_zero]
  by_cases hnil : vpre ++ vpost = []
  · simp only [hnil, if_true]
  · simp only [hnil, if_false]

/-! ## `Get` over backing arrays -/

namespace Mem

theorem read_length {V : Type} (heap : List (List V)) (s : Slice)
    (h : s.len ≤ (heap.getD s.ptr []).length) : (read heap s).length = s.len := by
  rw [read, List.length_take]
  exact Nat.min_eq_left h

theorem write_length {V : Type} (heap : List (List V)) (s : Slice) (c : List V) :
    (write heap s c).length = heap.length := by
  simp [write]

theorem getD_write_ne {V : Type} (heap : List (List V)) (s : Slice) (c : List V) (p : Nat)
    (h : p ≠ s.ptr) : (write heap s c).getD p [] = heap.getD p [] := by
  simp only [write, List.getD_eq_getElem?_getD]
  rw [List.getElem?_set_ne (Ne.symm h)]

theorem getD_write_same {V : Type} (heap : List (List V)) (s : Slice) (c : List V)
    (h : s.ptr < heap.length) :
    (write heap s c).getD s.ptr [] = c ++ (heap.getD s.ptr []).drop s.len := by
  simp only [write, List.getD_eq_getElem?_getD]
  rw [List.getElem?_set_self h]
  simp

theorem read_write_same {V : Type} (heap : List (List V)) (s : Slice) (c : List V)
    (h : s.ptr < heap.length) (hc : c.length = s.len) : read (write heap s c) s = c := by
  rw [read, getD_write_same heap s c h, ← hc, List.take_left]

theorem read_write_ne {V : Type} (heap : List (List V)) (s t : Slice) (c : List V)
    (h : t.ptr ≠ s.ptr) : read (write heap s c) t = read heap t := by
  rw [read, getD_write_ne heap s c t.ptr h, read]

/-- Overwriting the cells of a slice twice is overwriting them once. -/
theorem write_write {V : Type} (heap : List (List V)) (s : Slice) (a b : List V)
    (h : s.ptr < heap.length) (ha : a.length = s.len) :
    write (write heap s a) s b = write heap s b := by
  have h1 : ((write heap s a).getD s.ptr []).drop s.len = (heap.getD s.ptr []).drop s.len := by
    rw [getD_write_same heap s a h, ← ha, List.drop_left]
  rw [write, h1]
  simp [write]

theorem getD_append_old {V : Type} (heap : List (List V)) (a : List V) (p : Nat)
    (h : p < heap.length) : (heap ++ [a]).getD p [] = heap.getD p [] := by
  simp only [List.getD_eq_getElem?_getD]
  rw [List.getElem?_append_left h]

theorem getD_append_new {V : Type} (heap : List (List V)) (a : List V) :
    (heap ++ [a]).getD heap.length [] = a := by
  simp only [List.getD_eq_getElem?_getD]
  rw [List.getElem?_append_right (le_refl _)]
  simp

theorem read_append_new {V : Type} (heap : List (List V)) (arr : List V) (n c : Nat) :
    read (heap ++ [arr]) { ptr := heap.length, len := n, cap := c } = arr.take n := by
  rw [read, getD_append_new]

theorem valid_read_length {V : Type} {heap : List (List V)} {s : Slice}
    (h : Valid heap s) : (read heap s).length = s.len :=
  read_length heap s (by rw [h.2.2]; exact h.2.1)

/-- What `append` returns: a valid header over the old elements followed by
the new ones, in the old array or in a new one, all other arrays as they
were. -/
theorem appendSlice_spec {V : Type} [Inhabited V] (grow : Nat → Nat → Nat)
    (hgrow : ∀ c n, n ≤ grow c n) (heap : List (List V)) (s : Slice) (src : List V)
    (hv : Valid heap s) :
    Valid (appendSlice grow heap s src).1 (appendSlice grow heap s src).2 ∧
    (appendSlice grow heap s src).2.len = s.len + src.length ∧
    read (appendSlice grow heap s src).1 (appendSlice grow heap s src).2
      = read heap s ++ src ∧
    heap.length ≤ (appendSlice grow heap s src).1.length ∧
    ((appendSlice grow heap s src).2.ptr = s.ptr ∨
      (appendSlice grow heap s src).2.ptr = heap.length) ∧
    (∀ p, p < heap.length → p ≠ s.ptr →
      (appendSlice grow heap s src).1.getD p [] = heap.getD p []) := by
  have hrl : (read heap s).length = s.len := valid_read_length hv
  obtain ⟨hp, hlc, harr⟩ := hv
  by_cases hfit : s.len + src.length ≤ s.cap
  · have hr : appendSlice grow heap s src
        = (write heap { s with len := s.len + src.length } (read heap s ++ src),
            { s with len := s.len + src.length }) := by
      simp [appendSlice, hfit]
    rw [hr]
    have hcl : (read heap s ++ src).length
        = ({ s with len := s.len + src.length } : Slice).len := by
      simp [hrl]
    refine ⟨⟨?_, hfit, ?_⟩, rfl, ?_, ?_, Or.inl rfl, ?_⟩
    · show s.ptr < (write heap _ _).length
      rw [write_length]; exact hp
    · show ((write heap { s with len := s.len + src.length } (read heap s ++ src)).getD
        s.ptr []).length = s.cap
      have := getD_write_same heap { s with len := s.len + src.length } (read heap s ++ src) hp
      simp only at this
      rw [this]
      simp only [List.length_append, hrl, List.length_drop, harr]
      omega
    · exact read_write_same heap _ _ hp hcl
    · show heap.length ≤ (write heap _ _).length
      rw [write_length]
    · intro p _ hne
      exact getD_write_ne heap _ _ p hne
  · have hr : appendSlice grow heap s src
        = (heap ++ [read heap s ++ src
            ++ List.replicate (grow s.cap (s.len + src.length) - (s.len + src.length)) default],
          { ptr := heap.length, len := s.len + src.length,
            cap := grow s.cap (s.len + src.length) }) := by
      simp [appendSlice, hfit]
    rw [hr]
    have hg := hgrow s.cap (s.len + src.length)
    refine ⟨⟨by simp, hg, ?_⟩, rfl, ?_, by simp, Or.inr rfl, ?_⟩
    · show ((heap ++ [_]).getD heap.length []).length = grow s.cap (s.len + src.length)
      rw [getD_append_new]
      simp only [List.length_append, hrl, List.length_replicate]
      omega
    · have : s.len + src.length = (read heap s ++ src).length := by simp [hrl]
      refine (read_append_new heap _ (s.len + src.length)
        (grow s.cap (s.len + src.length))).trans ?_
      rw [this, List.take_left]
    · intro p hlt _
      exact getD_append_old heap _ p hlt

theorem setIndex_length {α : Type} (b l : List α) (i : Nat) (x : α)
    (h : setIndex b i x = some l) : l.length = b.length := by
  unfold setIndex at h
  split at h
  · cases h; simp
  · cases h

/-! ### The methods over backing arrays at a given result of the searches -/

theorem mem_Add_absent_key [Inhabited V] (grow : Nat → Nat → Nat) (heap : List (List V))
    (pre post : List (Entry K)) (key : K) (value : V)
    (hs : Search (pre ++ post).length
      (fun i => (index (pre ++ post) i).map (fun e => decide (e.Key ≥ key)))
      = some pre.length)
    (hhead : ∀ e, post.head? = some e → e.Key ≠ key) :
    Add grow ⟨heap, pre ++ post⟩ key value
      = some ⟨heap ++ [[value]], pre ++ ⟨key, ⟨heap.length, 1, 1⟩⟩ :: post⟩ := by
  have ht := test_miss Entry.Key pre post key hhead
  have hi := shift_insert (pre.map some) (post.map some) none
    (some (⟨key, ⟨heap.length, 1, 1⟩⟩ : Entry K))
  simp only [List.length_map, Option.bind_eq_some] at hi
  obtain ⟨b, hb1, hb2⟩ := hi
  simp only [Add, hs, ht, Option.bind_eq_bind, Option.some_bind, List.map_append, hb1, hb2]
  have : pre.map some ++ some (⟨key, ⟨heap.length, 1, 1⟩⟩ : Entry K) :: post.map some
      = (pre ++ ⟨key, ⟨heap.length, 1, 1⟩⟩ :: post).map some := by simp
  rw [this, allNonNil_map_some]
  simp

theorem mem_Add_absent_value [Inhabited V] (grow : Nat → Nat → Nat)
    (hgrow : ∀ c n, n ≤ grow c n) (heap : List (List V))
    (pre post : List (Entry K)) (key : K) (value : V) (s : Slice) (vpre vpost : List V)
    (hs : Search (pre ++ ⟨key, s⟩ :: post).length
      (fun i => (index (pre ++ ⟨key, s⟩ :: post) i).map (fun e => decide (e.Key ≥ key)))
      = some pre.length)
    (hv : Valid heap s) (hread : read heap s = vpre ++ vpost)
    (hvs : Search (vpre ++ vpost).length
      (fun i => (index (vpre ++ vpost) i).map (fun x => decide (x ≥ value)))
      = some vpre.length)
    (hhead : ∀ x, vpost.head? = some x → x ≠ value) :
    Add grow ⟨heap, pre ++ ⟨key, s⟩ :: post⟩ key value
      = some ⟨write (appendSlice grow heap s [value]).1 (appendSlice grow heap s [value]).2
                (vpre ++ value :: vpost),
              pre ++ ⟨key, (appendSlice grow heap s [value]).2⟩ :: post⟩ := by
  have ht := test_present Entry.Key pre post (⟨key, s⟩ : Entry K) key rfl
  have hvt := test_miss id vpre vpost value hhead
  simp only [id] at hvt
  have hlen : s.len = (vpre ++ vpost).length := by rw [← hread, valid_read_length hv]
  obtain ⟨r1, r2, r3, _, _, _⟩ := appendSlice_spec grow hgrow heap s [value] hv
  have hi := shift_insert vpre vpost value value
  simp only [Option.bind_eq_some] at hi
  obtain ⟨b, hb1, hb2⟩ := hi
  have hbl : b.length = (appendSlice grow heap s [value]).2.len := by
    rw [← setIndex_length b _ _ _ hb2, r2, hlen]; simp; omega
  have hcw : copyWindow (appendSlice grow heap s [value]).1 (appendSlice grow heap s [value]).2
      (vpre.length + 1) vpre.length
      = some (write (appendSlice grow heap s [value]).1 (appendSlice grow heap s [value]).2 b) := by
    rw [copyWindow, r3, hread, hb1]; rfl
  have hst : storeAt
      (write (appendSlice grow heap s [value]).1 (appendSlice grow heap s [value]).2 b)
      (appendSlice grow heap s [value]).2 vpre.length value
      = some (write (appendSlice grow heap s [value]).1 (appendSlice grow heap s [value]).2
          (vpre ++ value :: vpost)) := by
    rw [storeAt, read_write_same _ _ _ r1.1 hbl, hb2]
    simp only [Option.map_some']
    rw [write_write _ _ _ _ r1.1 hbl]
  simp only [Add, hs, ht, Option.bind_eq_bind, Option.some_bind, if_true]
  rw [index_split pre]
  simp only [List.head?_cons, Option.some_bind, readAt, hread, hlen, hvs, hvt]
  simp only [← hlen, ← hread, hcw, hst, Option.some_bind, set_split]
  simp

theorem mem_Add_present [Inhabited V] (grow : Nat → Nat → Nat) (heap : List (List V))
    (pre post : List (Entry K)) (key : K) (value : V) (s : Slice) (vpre vpost : List V)
    (hs : Search (pre ++ ⟨key, s⟩ :: post).length
      (fun i => (index (pre ++ ⟨key, s⟩ :: post) i).map (fun e => decide (e.Key ≥ key)))
      = some pre.length)
    (hv : Valid heap s) (hread : read heap s = vpre ++ value :: vpost)
    (hvs : Search (vpre ++ value :: vpost).length
      (fun i => (index (vpre ++ value :: vpost) i).map (fun x => decide (x ≥ value)))
      = some vpre.length) :
    Add grow ⟨heap, pre ++ ⟨key, s⟩ :: post⟩ key value
      = some ⟨heap, pre ++ ⟨key, s⟩ :: post⟩ := by
  have ht := test_present Entry.Key pre post (⟨key, s⟩ : Entry K) key rfl
  have hvt := test_present id vpre vpost value value rfl
  simp only [id] at hvt
  have hlen : s.len = (vpre ++ value :: vpost).length := by
    rw [← hread, valid_read_length hv]
  simp only [Add, hs, ht, Option.bind_eq_bind, Option.some_bind, if_true]
  rw [index_split pre]
  simp only [List.head?_cons, Option.some_bind, readAt, hread, hlen, hvs, hvt, if_true]

theorem mem_Get_absent_key (heap : List (List V)) (pre post : List (Entry K)) (key : K)
    (hs : Search (pre ++ post).length
      (fun i => (index (pre ++ post) i).map (fun e => decide (e.Key ≥ key)))
      = some pre.length)
    (hhead : ∀ e, post.head? = some e → e.Key ≠ key) :
    Get (⟨heap, pre ++ post⟩ : State K V) key = some (⟨0, 0, 0⟩, false) := by
  have ht := test_miss Entry.Key pre post key hhead
  simp only [Get, hs, ht, Option.bind_eq_bind, Option.some_bind]
  simp

theorem mem_Get_present_key (heap : List (List V)) (pre post : List (Entry K)) (key : K)
    (s : Slice)
    (hs : Search (pre ++ ⟨key, s⟩ :: post).length
      (fun i => (index (pre ++ ⟨key, s⟩ :: post) i).map (fun e => decide (e.Key ≥ key)))
      = some pre.length) :
    Get (⟨heap, pre ++ ⟨key, s⟩ :: post⟩ : State K V) key = some (s, true) := by
  have ht := test_present Entry.Key pre post (⟨key, s⟩ : Entry K) key rfl
  simp only [Get, hs, ht, Option.bind_eq_bind, Option.some_bind, if_true]
  rw [index_split pre]
  simp

theorem mem_Delete_absent_key [Inhabited V] (grow : Nat → Nat → Nat) (heap : List (List V))
    (pre post : List (Entry K)) (key : K) (value : V)
    (hs : Search (pre ++ post).length
      (fun i => (index (pre ++ post) i).map (fun e => decide (e.Key ≥ key)))
      = some pre.length)
    (hhead : ∀ e, post.head? = some e → e.Key ≠ key) :
    Delete grow ⟨heap, pre ++ post⟩ key value = some ⟨heap, pre ++ post⟩ := by
  have ht := test_miss Entry.Key pre post key hhead
  simp only [Delete, hs, ht, Option.bind_eq_bind, Option.some_bind]
  simp

theorem mem_Delete_absent_value [Inhabited V] (grow : Nat → Nat → Nat)
    (heap : List (List V))
    (pre post : List (Entry K)) (key : K) (value : V) (s : Slice) (vpre vpost : List V)
    (hs : Search (pre ++ ⟨key, s⟩ :: post).length
      (fun i => (index (pre ++ ⟨key, s⟩ :: post) i).map (fun e => decide (e.Key ≥ key)))
      = some pre.length)
    (hv : Valid heap s) (hread : read heap s = vpre ++ vpost)
    (hvs : Search (vpre ++ vpost).length
      (fun i => (index (vpre ++ vpost) i).map (fun x => decide (x ≥ value)))
      = some vpre.length)
    (hhead : ∀ x, vpost.head? = some x → x ≠ value) :
    Delete grow ⟨heap, pre ++ ⟨key, s⟩ :: post⟩ key value
      = some ⟨heap, pre ++ ⟨key, s⟩ :: post⟩ := by
  have ht := test_present Entry.Key pre post (⟨key, s⟩ : Entry K) key rfl
  have hvt := test_miss id vpre vpost value hhead
  simp only [id] at hvt
  have hlen : s.len = (vpre ++ vpost).length := by rw [← hread, valid_read_length hv]
  simp only [Delete, hs, ht, Option.bind_eq_bind, Option.some_bind, if_true]
  rw [index_split pre]
  simp only [List.head?_cons, Option.some_bind, readAt, hread, hlen, hvs, hvt]
  simp

theorem mem_Delete_present [Inhabited V] (grow : Nat → Nat → Nat) (heap : List (List V))
    (pre post : List (Entry K)) (key : K) (value : V) (s : Slice) (vpre vpost : List V)
    (hs : Search (pre ++ ⟨key, s⟩ :: post).length
      (fun i => (index (pre ++ ⟨key, s⟩ :: post) i).map (fun e => decide (e.Key ≥ key)))
      = some pre.length)
    (hv : Valid heap s) (hread : read heap s = vpre ++ value :: vpost)
    (hvs : Search (vpre ++ value :: vpost).length
      (fun i => (index (vpre ++ value :: vpost) i).map (fun x => decide (x ≥ value)))
      = some vpre.length) :
    Delete grow ⟨heap, pre ++ ⟨key, s⟩ :: post⟩ key value
      = some (if (appendSlice grow heap { s with len := vpre.length } vpost).2.len = 0 then
                ⟨(appendSlice grow heap { s with len := vpre.length } vpost).1, pre ++ post⟩
              else
                ⟨(appendSlice grow heap { s with len := vpre.length } vpost).1,
                 pre ++ ⟨key, (appendSlice grow heap { s with len := vpre.length } vpost).2⟩
                   :: post⟩) := by
  have ht := test_present Entry.Key pre post (⟨key, s⟩ : Entry K) key rfl
  have hvt := test_present id vpre vpost value value rfl
  simp only [id] at hvt
  have hlen : s.len = (vpre ++ value :: vpost).length := by
    rw [← hread, valid_read_length hv]
  have hcap : vpre.length ≤ s.cap := by
    have := hv.2.1
    rw [hlen] at this
    simp at this
    omega
  simp only [Delete, hs, ht, Option.bind_eq_bind, Option.some_bind, if_true]
  rw [index_split pre]
  simp only [List.head?_cons, Option.some_bind, readAt, hread, hlen, hvs, hvt, if_true]
  simp only [hcap, if_true, Option.some_bind, sliceFrom_split, set_split, sliceTo_split]
  split <;> rfl

/-! ### Simulation of the contents, well-formedness and frame -/

/-- The search over a slice stops at some index of it, whatever the test. -/
theorem search_at {β : Type} (l : List β) (P : β → Bool) :
    ∃ pre post, l = pre ++ post ∧
      Search (pre ++ post).length (fun i => (index (pre ++ post) i).map P)
        = some pre.length := by
  obtain ⟨i, hi, hle⟩ := Search_total l P
  refine ⟨l.take i, l.drop i, (List.take_append_drop i l).symm, ?_⟩
  rw [List.take_append_drop, hi, List.length_take, Nat.min_eq_left hle]

/-- The search over the image of a slice is the search over the slice. -/
theorem search_map {β γ : Type} (f : β → γ) (l : List β) (P : γ → Bool) :
    Search (l.map f).length (fun i => (index (l.map f) i).map P)
      = Search l.length (fun i => (index l i).map (fun e => P (f e))) := by
  rw [List.length_map]
  congr 1
  funext i
  simp only [index, List.getElem?_map, Option.map_map]
  rfl

theorem contents_split (heap : List (List V)) (pre post : List (Entry K)) :
    contents (⟨heap, pre ++ post⟩ : State K V)
      = ⟨pre.map (entryContents heap) ++ post.map (entryContents heap)⟩ := by
  simp [contents]

/-- The key search on the contents is the key search on the headers. -/
theorem keySearch_contents (heap : List (List V)) (pre post : List (Entry K)) (key : K)
    (hs : Search (pre ++ post).length
      (fun i => (index (pre ++ post) i).map (fun e => decide (e.Key ≥ key)))
      = some pre.length) :
    Search (pre.map (entryContents heap) ++ post.map (entryContents heap)).length
      (fun i => (index (pre.map (entryContents heap) ++ post.map (entryContents heap)) i).map
        (fun e => decide (e.Key ≥ key)))
      = some (pre.map (entryContents heap)).length := by
  rw [← List.map_append, search_map, List.length_map]
  exact hs

/-- Entries whose arrays keep their cells in a heap that only grew keep valid
headers and their contents. -/
theorem entries_kept (heap heap1 : List (List V)) (l : List (Entry K))
    (hv : ∀ e ∈ l, Valid heap e.Chain) (hlen : heap.length ≤ heap1.length)
    (hsame : ∀ e ∈ l, heap1.getD e.Chain.ptr [] = heap.getD e.Chain.ptr []) :
    (∀ e ∈ l, Valid heap1 e.Chain) ∧
    l.map (entryContents heap1) = l.map (entryContents heap) := by
  constructor
  · intro e he
    obtain ⟨h1, h2, h3⟩ := hv e he
    exact ⟨lt_of_lt_of_le h1 hlen, h2, by rw [hsame e he]; exact h3⟩
  · apply List.map_congr_left
    intro e he
    simp only [entryContents, read, hsame e he]

theorem head_map_ne (heap : List (List V)) (post : List (Entry K)) (key : K)
    (hhead : ∀ e, post.head? = some e → e.Key ≠ key) :
    ∀ e, (post.map (entryContents heap)).head? = some e → e.Key ≠ key := by
  intro e he
  cases post with
  | nil => simp at he
  | cons a post =>
    simp only [List.map_cons, List.head?_cons, Option.some.injEq] at he
    rw [← he]
    exact hhead a rfl

theorem mem_middle {α : Type} (pre post : List α) (a x : α)
    (h : x ∈ pre ++ post) : x ∈ pre ++ a :: post := by
  rcases List.mem_append.mp h with h1 | h1
  · exact List.mem_append_left _ h1
  · exact List.mem_append_right _ (List.mem_cons_of_mem _ h1)

/-- `Add` of a new key over backing arrays: simulation, well-formedness and
frame. -/
theorem mem_Add_sim_absent_key [Inhabited V] (grow : Nat → Nat → Nat) (heap : List (List V))
    (pre post : List (Entry K)) (key : K) (value : V)
    (hwf : WF (⟨heap, pre ++ post⟩ : State K V))
    (hs : Search (pre ++ post).length
      (fun i => (index (pre ++ post) i).map (fun e => decide (e.Key ≥ key)))
      = some pre.length)
    (hhead : ∀ e, post.head? = some e → e.Key ≠ key) :
    ∃ st1, Add grow ⟨heap, pre ++ post⟩ key value = some st1 ∧
      CompactChain.Add (contents ⟨heap, pre ++ post⟩) key value = some (contents st1) ∧
      WF st1 ∧ Frame ⟨heap, pre ++ post⟩ st1 key := by
  have hs1 := keySearch_contents heap pre post key hs
  have hlen : heap.length ≤ (heap ++ [[value]]).length := by simp
  have hsame : ∀ e ∈ pre ++ post,
      (heap ++ [[value]]).getD e.Chain.ptr [] = heap.getD e.Chain.ptr [] :=
    fun e he => getD_append_old heap _ _ (hwf.1 e he).1
  have hkpre := entries_kept heap (heap ++ [[value]]) pre
    (fun e he => hwf.1 e (List.mem_append_left _ he)) hlen
    (fun e he => hsame e (List.mem_append_left _ he))
  have hkpost := entries_kept heap (heap ++ [[value]]) post
    (fun e he => hwf.1 e (List.mem_append_right _ he)) hlen
    (fun e he => hsame e (List.mem_append_right _ he))
  refine ⟨_, mem_Add_absent_key grow heap pre post key value hs hhead, ?_, ?_, ?_⟩
  · rw [contents_split, Add_at_absent_key _ _ key value hs1 (head_map_ne heap post key hhead)]
    simp only [contents, List.map_append, List.map_cons, hkpre.2, hkpost.2]
    simp [entryContents, read_append_new]
  · constructor
    · intro e he
      simp only [List.mem_append, List.mem_cons] at he
      rcases he with h1 | h1 | h1
      · exact hkpre.1 e h1
      · subst h1
        refine ⟨by simp, le_refl _, ?_⟩
        show ((heap ++ [[value]]).getD heap.length []).length = 1
        rw [getD_append_new]; rfl
      · exact hkpost.1 e h1
    · simp only [List.map_append, List.map_cons]
      rw [List.nodup_middle, List.nodup_cons]
      refine ⟨?_, by simpa using hwf.2⟩
      intro hmem
      rw [← List.map_append] at hmem
      obtain ⟨e, he, hp⟩ := List.mem_map.mp hmem
      have h1 := (hwf.1 e he).1
      have h2 : e.Chain.ptr = heap.length := hp
      simp only at h1
      omega
  · intro e he _
    exact ⟨mem_middle pre post _ e he, hsame e he⟩

/-- Replacing or removing the entry of a key, with a new header over its own
or a new array and all other arrays as they were, keeps the structure
well-formed, the contents of the other entries, and the frame. -/
theorem wf_replace (heap heap1 : List (List V)) (pre post : List (Entry K)) (key : K)
    (s s1 : Slice)
    (hwf : WF (⟨heap, pre ++ ⟨key, s⟩ :: post⟩ : State K V))
    (hlen : heap.length ≤ heap1.length)
    (hsame : ∀ p, p < heap.length → p ≠ s.ptr → heap1.getD p [] = heap.getD p [])
    (hnew : Valid heap1 s1) (hptr : s1.ptr = s.ptr ∨ s1.ptr = heap.length) :
    WF (⟨heap1, pre ++ ⟨key, s1⟩ :: post⟩ : State K V) ∧
    WF (⟨heap1, pre ++ post⟩ : State K V) ∧
    pre.map (entryContents heap1) = pre.map (entryContents heap) ∧
    post.map (entryContents heap1) = post.map (entryContents heap) ∧
    Frame (⟨heap, pre ++ ⟨key, s⟩ :: post⟩ : State K V) ⟨heap1, pre ++ ⟨key, s1⟩ :: post⟩ key ∧
    Frame (⟨heap, pre ++ ⟨key, s⟩ :: post⟩ : State K V) ⟨heap1, pre ++ post⟩ key := by
  obtain ⟨hv, hnd⟩ := hwf
  simp only [List.map_append, List.map_cons] at hnd
  rw [List.nodup_middle, List.nodup_cons, ← List.map_append] at hnd
  obtain ⟨hnot, hnd1⟩ := hnd
  have hvo : ∀ e ∈ pre ++ post, Valid heap e.Chain :=
    fun e he => hv e (mem_middle pre post _ e he)
  have hne : ∀ e ∈ pre ++ post, e.Chain.ptr ≠ s.ptr := by
    intro e he hp
    exact hnot (List.mem_map.mpr ⟨e, he, hp⟩)
  have hsame1 : ∀ e ∈ pre ++ post, heap1.getD e.Chain.ptr [] = heap.getD e.Chain.ptr [] :=
    fun e he => hsame _ (hvo e he).1 (hne e he)
  have hkpre := entries_kept heap heap1 pre
    (fun e he => hvo e (List.mem_append_left _ he)) hlen
    (fun e he => hsame1 e (List.mem_append_left _ he))
  have hkpost := entries_kept heap heap1 post
    (fun e he => hvo e (List.mem_append_right _ he)) hlen
    (fun e he => hsame1 e (List.mem_append_right _ he))
  have hvall : ∀ e ∈ pre ++ post, Valid heap1 e.Chain := by
    intro e he
    rcases List.mem_append.mp he with h1 | h1
    · exact hkpre.1 e h1
    · exact hkpost.1 e h1
  have hold : ∀ e ∈ pre ++ (⟨key, s⟩ : Entry K) :: post, e.Key ≠ key → e ∈ pre ++ post := by
    intro e he hk
    simp only [List.mem_append, List.mem_cons] at he
    rcases he with h1 | h1 | h1
    · exact List.mem_append_left _ h1
    · rw [h1] at hk; exact absurd rfl hk
    · exact List.mem_append_right _ h1
  refine ⟨⟨?_, ?_⟩, ⟨hvall, hnd1⟩, hkpre.2, hkpost.2, ?_, ?_⟩
  · intro e he
    simp only [List.mem_append, List.mem_cons] at he
    rcases he with h1 | h1 | h1
    · exact hkpre.1 e h1
    · rw [h1]; exact hnew
    · exact hkpost.1 e h1
  · simp only [List.map_append, List.map_cons]
    rw [List.nodup_middle, List.nodup_cons, ← List.map_append]
    refine ⟨?_, hnd1⟩
    intro hmem
    obtain ⟨e, he, hp⟩ := List.mem_map.mp hmem
    have hp1 : e.Chain.ptr = s1.ptr := hp
    rcases hptr with h1 | h1
    · exact hne e he (hp1.trans h1)
    · have := (hvo e he).1
      omega
  · intro e he hk
    exact ⟨mem_middle pre post _ e (hold e he hk), hsame1 e (hold e he hk)⟩
  · intro e he hk
    exact ⟨hold e he hk, hsame1 e (hold e he hk)⟩

theorem valid_write {V : Type} (heap : List (List V)) (s : Slice) (c : List V)
    (hv : Valid heap s) (hc : c.length = s.len) : Valid (write heap s c) s := by
  obtain ⟨h1, h2, h3⟩ := hv
  refine ⟨by rw [write_length]; exact h1, h2, ?_⟩
  rw [getD_write_same heap s c h1]
  simp only [List.length_append, List.length_drop, hc, h3]
  omega

theorem frame_refl (st : State K V) (key : K) : Frame st st key :=
  fun _ he _ => ⟨he, rfl⟩

/-- `Add` on a key that has an entry, over backing arrays: simulation,
well-formedness and frame. -/
theorem mem_Add_sim_present_key [Inhabited V] (grow : Nat → Nat → Nat)
    (hgrow : ∀ c n, n ≤ grow c n) (heap : List (List V))
    (pre post : List (Entry K)) (key : K) (value : V) (s : Slice)
    (hwf : WF (⟨heap, pre ++ ⟨key, s⟩ :: post⟩ : State K V))
    (hs : Search (pre ++ ⟨key, s⟩ :: post).length
      (fun i => (index (pre ++ ⟨key, s⟩ :: post) i).map (fun e => decide (e.Key ≥ key)))
      = some pre.length) :
    ∃ st1, Add grow ⟨heap, pre ++ ⟨key, s⟩ :: post⟩ key value = some st1 ∧
      CompactChain.Add (contents ⟨heap, pre ++ ⟨key, s⟩ :: post⟩) key value
        = some (contents st1) ∧
      WF st1 ∧ Frame ⟨heap, pre ++ ⟨key, s⟩ :: post⟩ st1 key := by
  have hv : Valid heap s := hwf.1 ⟨key, s⟩ (by simp)
  obtain ⟨vpre, vpost, hread, hvs⟩ := search_at (read heap s) (fun x => decide (x ≥ value))
  have hs1 := keySearch_contents heap pre (⟨key, s⟩ :: post) key hs
  simp only [List.map_cons, entryContents] at hs1
  rw [hread] at hs1
  have hc : contents (⟨heap, pre ++ ⟨key, s⟩ :: post⟩ : State K V)
      = ⟨pre.map (entryContents heap) ++ ⟨key, vpre ++ vpost⟩ :: post.map (entryContents heap)⟩ := by
    rw [contents_split]
    simp only [List.map_cons, entryContents, hread]
  rw [hc]
  by_cases hhead : ∀ x, vpost.head? = some x → x ≠ value
  · obtain ⟨r1, r2, r3, r4, r5, r6⟩ := appendSlice_spec grow hgrow heap s [value] hv
    have hb : (vpre ++ value :: vpost).length = (appendSlice grow heap s [value]).2.len := by
      rw [r2, ← valid_read_length hv, hread]; simp; omega
    have hv3 := valid_write _ _ _ r1 hb
    have hwr := wf_replace heap
      (write (appendSlice grow heap s [value]).1 (appendSlice grow heap s [value]).2
        (vpre ++ value :: vpost)) pre post key s (appendSlice grow heap s [value]).2 hwf
      (by rw [write_length]; exact r4)
      (by
        intro p hp hne
        have hne2 : p ≠ (appendSlice grow heap s [value]).2.ptr := by
          rcases r5 with h | h
          · rw [h]; exact hne
          · rw [h]; omega
        rw [getD_write_ne _ _ _ p hne2]
        exact r6 p hp hne)
      hv3 r5
    obtain ⟨w1, _, w3, w4, w5, _⟩ := hwr
    refine ⟨_, mem_Add_absent_value grow hgrow heap pre post key value s vpre vpost hs hv hread
      hvs hhead, ?_, w1, w5⟩
    rw [Add_at_absent_value _ _ key value vpre vpost hs1 hvs hhead]
    simp only [contents, List.map_append, List.map_cons, w3, w4]
    simp only [entryContents, read_write_same _ _ _ r1.1 hb]
  · have hex : ∃ vpost1, vpost = value :: vpost1 := by
      cases vpost with
      | nil => exact absurd (fun x hx => by simp at hx) hhead
      | cons x vpost1 =>
        refine ⟨vpost1, ?_⟩
        by_contra hne
        apply hhead
        intro y hy
        simp only [List.head?_cons, Option.some.injEq] at hy
        intro hyv
        apply hne
        rw [hy, hyv]
    obtain ⟨vpost1, rfl⟩ := hex
    refine ⟨_, mem_Add_present grow heap pre post key value s vpre vpost1 hs hv hread hvs,
      ?_, hwf, frame_refl _ _⟩
    rw [Add_at_present _ _ key value vpre vpost1 hs1 hvs, hc]

/-- The key search stops at the end, at an entry of another key, or at the
entry of the key. -/
theorem key_cases (l : List (Entry K)) (key : K) :
    ∃ pre post, l = pre ++ post ∧
      Search (pre ++ post).length
        (fun i => (index (pre ++ post) i).map (fun e => decide (e.Key ≥ key)))
        = some pre.length ∧
      ((∀ e, post.head? = some e → e.Key ≠ key) ∨ ∃ s post1, post = ⟨key, s⟩ :: post1) := by
  obtain ⟨pre, post, hl, hs⟩ := search_at l (fun e => decide (e.Key ≥ key))
  refine ⟨pre, post, hl, hs, ?_⟩
  cases post with
  | nil => exact Or.inl (fun e he => by simp at he)
  | cons a post1 =>
    by_cases hk : a.Key = key
    · obtain ⟨k, s⟩ := a
      simp only at hk
      subst hk
      exact Or.inr ⟨s, post1, rfl⟩
    · left
      intro e he
      simp only [List.head?_cons, Option.some.injEq] at he
      rw [← he]; exact hk

/-- `Add` over backing arrays on a well-formed state returns a well-formed
state whose contents are what `Add` on the contents returns, and leaves the
entries of other keys and their arrays alone. -/
theorem mem_Add_sim [Inhabited V] (grow : Nat → Nat → Nat) (hgrow : ∀ c n, n ≤ grow c n)
    (st : State K V) (hwf : WF st) (key : K) (value : V) :
    ∃ st1, Add grow st key value = some st1 ∧
      CompactChain.Add (contents st) key value = some (contents st1) ∧
      WF st1 ∧ Frame st st1 key := by
  obtain ⟨heap, l⟩ := st
  obtain ⟨pre, post, hl, hs, hcase⟩ := key_cases l key
  subst hl
  rcases hcase with hhead | ⟨s, post1, rfl⟩
  · exact mem_Add_sim_absent_key grow heap pre post key value hwf hs hhead
  · exact mem_Add_sim_present_key grow hgrow heap pre post1 key value s hwf hs

theorem read_front {V : Type} (heap : List (List V)) (s : Slice) (vpre rest : List V)
    (hread : read heap s = vpre ++ rest) :
    read heap { s with len := vpre.length } = vpre := by
  have h1 : (read heap s).take vpre.length = vpre := by rw [hread, List.take_left]
  rw [read] at h1
  rw [List.take_take] at h1
  have hle : vpre.length ≤ s.len := by
    by_contra hlt
    have h2 : (read heap s).length ≤ s.len := by
      rw [read, List.length_take]; exact Nat.min_le_left _ _
    rw [hread] at h2
    simp at h2
    omega
  rw [Nat.min_eq_left hle] at h1
  exact h1

/-- `Delete` on a key that has an entry, over backing arrays: simulation,
well-formedness and frame. -/
theorem mem_Delete_sim_present_key [Inhabited V] (grow : Nat → Nat → Nat)
    (hgrow : ∀ c n, n ≤ grow c n) (heap : List (List V))
    (pre post : List (Entry K)) (key : K) (value : V) (s : Slice)
    (hwf : WF (⟨heap, pre ++ ⟨key, s⟩ :: post⟩ : State K V))
    (hs : Search (pre ++ ⟨key, s⟩ :: post).length
      (fun i => (index (pre ++ ⟨key, s⟩ :: post) i).map (fun e => decide (e.Key ≥ key)))
      = some pre.length) :
    ∃ st1, Delete grow ⟨heap, pre ++ ⟨key, s⟩ :: post⟩ key value = some st1 ∧
      CompactChain.Delete (contents ⟨heap, pre ++ ⟨key, s⟩ :: post⟩) key value
        = some (contents st1) ∧
      WF st1 ∧ Frame ⟨heap, pre ++ ⟨key, s⟩ :: post⟩ st1 key := by
  have hv : Valid heap s := hwf.1 ⟨key, s⟩ (by simp)
  obtain ⟨vpre, vpost, hread, hvs⟩ := search_at (read heap s) (fun x => decide (x ≥ value))
  have hs1 := keySearch_contents heap pre (⟨key, s⟩ :: post) key hs
  simp only [List.map_cons, entryContents] at hs1
  rw [hread] at hs1
  have hc : contents (⟨heap, pre ++ ⟨key, s⟩ :: post⟩ : State K V)
      = ⟨pre.map (entryContents heap) ++ ⟨key, vpre ++ vpost⟩ :: post.map (entryContents heap)⟩ := by
    rw [contents_split]
    simp only [List.map_cons, entryContents, hread]
  by_cases hhead : ∀ x, vpost.head? = some x → x ≠ value
  · refine ⟨_, mem_Delete_absent_value grow heap pre post key value s vpre vpost hs hv hread
      hvs hhead, ?_, hwf, frame_refl _ _⟩
    rw [hc, Delete_at_absent_value _ _ key value vpre vpost hs1 hvs hhead]
  · have hex : ∃ vpost1, vpost = value :: vpost1 := by
      cases vpost with
      | nil => exact absurd (fun x hx => by simp at hx) hhead
      | cons x vpost1 =>
        refine ⟨vpost1, ?_⟩
        by_contra hne
        apply hhead
        intro y hy
        simp only [List.head?_cons, Option.some.injEq] at hy
        intro hyv
        apply hne
        rw [hy, hyv]
    obtain ⟨vpost1, rfl⟩ := hex
    have hlen : s.len = (vpre ++ value :: vpost1).length := by
      rw [← hread, valid_read_length hv]
    have hvf : Valid heap { s with len := vpre.length } := by
      refine ⟨hv.1, ?_, hv.2.2⟩
      have := hv.2.1
      rw [hlen] at this
      simp at this
      show vpre.length ≤ s.cap
      omega
    obtain ⟨r1, r2, r3, r4, r5, r6⟩ :=
      appendSlice_spec grow hgrow heap { s with len := vpre.length } vpost1 hvf
    rw [read_front heap s vpre _ hread] at r3
    obtain ⟨w1, w2, w3, w4, w5, w6⟩ := wf_replace heap
      (appendSlice grow heap { s with len := vpre.length } vpost1).1 pre post key s
      (appendSlice grow heap { s with len := vpre.length } vpost1).2 hwf r4 r6 r1 r5
    have hmem := mem_Delete_present grow heap pre post key value s vpre vpost1 hs hv hread hvs
    have hlist := Delete_at_present (pre.map (entryContents heap))
      (post.map (entryContents heap)) key value vpre vpost1 hs1 hvs
    rw [hc, hlist, hmem]
    have hiff : (appendSlice grow heap { s with len := vpre.length } vpost1).2.len = 0
        ↔ vpre ++ vpost1 = [] := by
      rw [r2]
      constructor
      · intro h0
        apply List.eq_nil_of_length_eq_zero
        simp only [List.length_append]
        exact h0
      · intro hnil
        have := congrArg List.length hnil
        simpa using this
    by_cases hnil : vpre ++ vpost1 = []
    · rw [if_pos (hiff.mpr hnil), if_pos hnil]
      refine ⟨_, rfl, ?_, w2, w6⟩
      simp only [contents, List.map_append, w3, w4]
    · rw [if_neg (fun h0 => hnil (hiff.mp h0)), if_neg hnil]
      refine ⟨_, rfl, ?_, w1, w5⟩
      simp only [contents, List.map_append, List.map_cons, w3, w4]
      simp only [entryContents, r3]

/-- `Delete` over backing arrays on a well-formed state returns a well-formed
state whose contents are what `Delete` on the contents returns, and leaves
the entries of other keys and their arrays alone. -/
theorem mem_Delete_sim [Inhabited V] (grow : Nat → Nat → Nat) (hgrow : ∀ c n, n ≤ grow c n)
    (st : State K V) (hwf : WF st) (key : K) (value : V) :
    ∃ st1, Delete grow st key value = some st1 ∧
      CompactChain.Delete (contents st) key value = some (contents st1) ∧
      WF st1 ∧ Frame st st1 key := by
  obtain ⟨heap, l⟩ := st
  obtain ⟨pre, post, hl, hs, hcase⟩ := key_cases l key
  subst hl
  rcases hcase with hhead | ⟨s, post1, rfl⟩
  · refine ⟨_, mem_Delete_absent_key grow heap pre post key value hs hhead, ?_, hwf,
      frame_refl _ _⟩
    rw [contents_split, Delete_at_absent_key _ _ key value
      (keySearch_contents heap pre post key hs) (head_map_ne heap post key hhead)]
  · exact mem_Delete_sim_present_key grow hgrow heap pre post1 key value s hwf hs

/-- `Get` over backing arrays returns a header that reads, in the current
heap, what `Get` on the contents returns. -/
theorem mem_Get_sim (st : State K V) (key : K) :
    ∃ s found, Get st key = some (s, found) ∧
      CompactChain.Get (contents st) key = some (read st.heap s, found) ∧
      (found = true → (⟨key, s⟩ : Entry K) ∈ st.buffers) ∧
      (found = false → s = ⟨0, 0, 0⟩) := by
  obtain ⟨heap, l⟩ := st
  obtain ⟨pre, post, hl, hs, hcase⟩ := key_cases l key
  subst hl
  rcases hcase with hhead | ⟨s, post1, rfl⟩
  · refine ⟨⟨0, 0, 0⟩, false, mem_Get_absent_key heap pre post key hs hhead, ?_,
      by simp, by simp⟩
    rw [contents_split, Get_at_absent_key _ _ key
      (keySearch_contents heap pre post key hs) (head_map_ne heap post key hhead)]
    simp [read]
  · refine ⟨s, true, mem_Get_present_key heap pre post1 key s hs, ?_, by simp, by simp⟩
    have hs1 := keySearch_contents heap pre (⟨key, s⟩ :: post1) key hs
    simp only [List.map_cons, entryContents] at hs1
    rw [contents_split]
    simp only [List.map_cons, entryContents]
    exact Get_at_present_key _ _ key _ hs1

/-! ### Sequences of calls over backing arrays -/

theorem WF_new : WF (NewCompactChain : State K V) := by
  constructor
  · intro e he; simp [NewCompactChain] at he
  · simp [NewCompactChain]

theorem mem_step_sim [Inhabited V] (grow : Nat → Nat → Nat) (hgrow : ∀ c n, n ≤ grow c n)
    (st : State K V) (hwf : WF st) (op : Op K V) :
    ∃ st1, step grow st op = some st1 ∧
      CompactChain.step (contents st) op = some (contents st1) ∧
      WF st1 ∧ Frame st st1 op.key := by
  cases op with
  | add key value => exact mem_Add_sim grow hgrow st hwf key value
  | delete key value => exact mem_Delete_sim grow hgrow st hwf key value

/-- A sequence of calls over backing arrays on a well-formed state runs to a
well-formed state whose contents are what the sequence gives on the
contents. -/
theorem mem_run_sim [Inhabited V] (grow : Nat → Nat → Nat) (hgrow : ∀ c n, n ≤ grow c n)
    (ops : List (Op K V)) :
    ∀ st : State K V, WF st →
      ∃ st1, run grow st ops = some st1 ∧
        CompactChain.run (contents st) ops = some (contents st1) ∧ WF st1 := by
  induction ops with
  | nil => intro st hwf; exact ⟨st, rfl, rfl, hwf⟩
  | cons op ops ih =>
    intro st hwf
    obtain ⟨st1, h1, h2, h3, _⟩ := mem_step_sim grow hgrow st hwf op
    obtain ⟨st2, g1, g2, g3⟩ := ih st1 h3
    exact ⟨st2, by simp [run, h1, g1], by simp [CompactChain.run, h2, g2], g3⟩

/-- A sequence of calls none of which mentions the key leaves the entry of
the key in the structure, with its header, and leaves its array alone. -/
theorem mem_run_frame [Inhabited V] (grow : Nat → Nat → Nat) (hgrow : ∀ c n, n ≤ grow c n)
    (k : K) (ops : List (Op K V)) (hops : ∀ op ∈ ops, op.key ≠ k) :
    ∀ st : State K V, WF st →
      ∃ st1, run grow st ops = some st1 ∧
        ∀ e ∈ st.buffers, e.Key = k →
          e ∈ st1.buffers ∧ st1.heap.getD e.Chain.ptr [] = st.heap.getD e.Chain.ptr [] := by
  induction ops with
  | nil => intro st _; exact ⟨st, rfl, fun e he _ => ⟨he, rfl⟩⟩
  | cons op ops ih =>
    intro st hwf
    obtain ⟨st1, h1, _, h3, h4⟩ := mem_step_sim grow hgrow st hwf op
    obtain ⟨st2, g1, g2⟩ := ih (fun o ho => hops o (List.mem_cons_of_mem _ ho)) st1 h3
    refine ⟨st2, by simp [run, h1, g1], ?_⟩
    intro e he hk
    have hne : e.Key ≠ op.key := by
      rw [hk]; exact Ne.symm (hops op (List.mem_cons_self _ _))
    obtain ⟨f1, f2⟩ := h4 e he hne
    obtain ⟨f3, f4⟩ := g2 e f1 hk
    exact ⟨f3, f4.trans f2⟩

theorem contents_new :
    contents (NewCompactChain : State K V) = CompactChain.NewCompactChain := rfl

/-- C14 as the code has it.  `Get(k)` over backing arrays returns the header
of the chain of `k` itself, not a copy: read when it is returned it shows
exactly the values that `Get(k)` returns on the contents, and later `Add` and
`Delete` calls on keys other than `k` do not change what it shows.  (Calls on
`k` itself are not covered: they may move the cells under it.) -/
theorem get_shares_storage [Inhabited V] (grow : Nat → Nat → Nat)
    (hgrow : ∀ c n, n ≤ grow c n) (ops : List (Op K V)) (k : K) (later : List (Op K V))
    (hlater : ∀ op ∈ later, op.key ≠ k) :
    ∃ st s found st1,
      run grow (NewCompactChain : State K V) ops = some st ∧
      CompactChain.run (CompactChain.NewCompactChain : CompactChain K V) ops
        = some (contents st) ∧
      Get st k = some (s, found) ∧
      CompactChain.Get (contents st) k = some (read st.heap s, found) ∧
      (found = true → (⟨k, s⟩ : Entry K) ∈ st.buffers) ∧
      run grow st later = some st1 ∧
      read st1.heap s = read st.heap s := by
  obtain ⟨st, h1, h2, h3⟩ := mem_run_sim grow hgrow ops (NewCompactChain : State K V) WF_new
  obtain ⟨s, found, g1, g2, g3, g4⟩ := mem_Get_sim st k
  obtain ⟨st1, f1, f2⟩ := mem_run_frame grow hgrow k later hlater st h3
  refine ⟨st, s, found, st1, h1, ?_, g1, g2, g3, f1, ?_⟩
  · rw [← h2, contents_new]
  · cases found with
    | true =>
      have := (f2 ⟨k, s⟩ (g3 rfl) rfl).2
      simp only at this
      rw [read, read, this]
    | false =>
      rw [g4 rfl]
      simp [read]

theorem double_grows (c n : Nat) : n ≤ double c n := by
  unfold double
  exact le_max_right _ _

theorem get_shares_storage_witness :
    ∃ st s found st1,
      run double (NewCompactChain : State Nat Nat) [Op.add 1 100, Op.add 1 200] = some st ∧
      CompactChain.run (CompactChain.NewCompactChain : CompactChain Nat Nat)
        [Op.add 1 100, Op.add 1 200] = some (contents st) ∧
      Get st 1 = some (s, found) ∧
      CompactChain.Get (contents st) 1 = some (read st.heap s, found) ∧
      (found = true → (⟨1, s⟩ : Entry Nat) ∈ st.buffers) ∧
      run double st [Op.add 2 7, Op.delete 2 7, Op.add 0 5] = some st1 ∧
      read st1.heap s = read st.heap s :=
  get_shares_storage double double_grows [Op.add 1 100, Op.add 1 200] 1
    [Op.add 2 7, Op.delete 2 7, Op.add 0 5] (by decide)

/-- C14 as stated fails on the code.  After `Add(1, 100)`, `Add(1, 200)` the
slice `s` returned by `Get(1)` reads `[100, 200]`; after `Delete(1, 100)` the
same `s` reads `[200, 200]`: the deletion shifted the cells of the array that
`s` shares with the chain.  And a store `s[0] = 999` by the caller changes
what `Get(1)` returns on the structure. -/
theorem get_shares_storage_counterexample :
    ∃ st s st1 heap2,
      run double (NewCompactChain : State Nat Nat) [Op.add 1 100, Op.add 1 200] = some st ∧
      Get st 1 = some (s, true) ∧
      read st.heap s = [100, 200] ∧
      Delete double st 1 100 = some st1 ∧
      read st1.heap s = [200, 200] ∧
      read st1.heap s ≠ read st.heap s ∧
      storeAt st.heap s 0 999 = some heap2 ∧
      CompactChain.Get (contents ⟨heap2, st.buffers⟩) 1 = some ([999, 200], true) :=
  ⟨⟨[[100], [100, 200]], [⟨1, ⟨1, 2, 2⟩⟩]⟩, ⟨1, 2, 2⟩, ⟨[[100], [200, 200]], [⟨1, ⟨1, 1, 2⟩⟩]⟩,
    [[100], [999, 200]], by decide, by decide, by decide, by decide, by decide, by decide,
    by decide, by decide⟩

end Mem


/-! ## The scenarios of `chain_test.go`, run on the embedding -/

/-- The scenario of `TestAddAndGet`. -/
theorem test_add_and_get :
    (run (NewCompactChain : CompactChain Nat Nat)
      [Op.add 1 100, Op.add 1 200, Op.add 1 300, Op.add 1 200, Op.add 2 400]).bind
      (fun cm => some (Get cm 1, Get cm 2, Get cm 3))
    = some (some ([100, 200, 300], true), some ([400], true), some ([], false)) := by
  decide

/-- The scenario of `TestDelete`. -/
theorem test_delete :
    (run (NewCompactChain : CompactChain Nat Nat)
      [Op.add 1 100, Op.add 1 200, Op.add 2 300, Op.delete 1 100]).bind
      (fun cm => (Delete cm 1 200).bind (fun cm1 => some (Get cm 1, Get cm1 1, Get cm1 2)))
    = some (some ([200], true), some ([], false), some ([300], true)) := by
  decide

/-- The scenario of `TestExist`. -/
theorem test_exist :
    (run (NewCompactChain : CompactChain Nat Nat)
      [Op.add 1 100, Op.add 1 200, Op.add 2 300]).bind
      (fun cm => some (Exist cm 1 100, Exist cm 1 300, Exist cm 2 300))
    = some (some true, some false, some true) := by
  decide

/-- The scenario of `TestCount`. -/
theorem test_count :
    (run (NewCompactChain : CompactChain Nat Nat) []).map Count = some 0 ∧
    (run (NewCompactChain : CompactChain Nat Nat) [Op.add 1 100]).map Count = some 1 ∧
    (run (NewCompactChain : CompactChain Nat Nat)
      [Op.add 1 100, Op.add 2 200, Op.add 1 300]).map Count = some 3 ∧
    (run (NewCompactChain : CompactChain Nat Nat)
      [Op.add 1 100, Op.add 2 200, Op.add 1 300, Op.delete 1 100]).map Count = some 2 := by
  decide

/-- The scenario of `TestIterate`, with a visitor that collects the pairs. -/
theorem test_iterate :
    (run (NewCompactChain : CompactChain Nat Nat)
      [Op.add 1 100, Op.add 1 200, Op.add 2 300]).map
      (fun cm => Iterate cm (fun result key value => (true, result ++ [(key, value)])) [])
    = some [(1, 100), (1, 200), (2, 300)] := by
  decide

-- The scenario of `TestAddMultipleBuffers`: a hundred pairs `(i / 10, i)`.
set_option maxRecDepth 100000 in
theorem test_add_multiple_buffers :
    (run (NewCompactChain : CompactChain Nat Nat)
      ((List.range 100).map (fun i => Op.add (i / 10) i))).bind
      (fun cm => some (Count cm, (List.range 10).map (fun i => Get cm i)))
    = some (100, (List.range 10).map
        (fun i => some ((List.range 10).map (fun j => i * 10 + j), true))) := by
  decide

end CompactChain
